import Mathlib

/-!
Verification development for `src/parcount.cpp`, a thread micro-benchmark that
increments a shared counter with five strategies (unsynchronized race, explicit
mutex, scoped lock guard, atomic fetch-add, and per-worker local slots with a
final reduction).  The C++ is embedded shallowly: the argument-scanning loop
and the per-trial bookkeeping of `main` become Lean functions, and each
strategy's concurrent trial becomes a small-step interleaving relation whose
reachable final states are analysed.
-/

namespace Parcount

/-! ### Model of the C library numeric parser

`main` converts flag values with `atoi` (src line 126 and 130).  C `atoi`
skips leading whitespace, accepts an optional sign, then reads leading decimal
digits; any other input yields 0. -/

/-- The whitespace characters skipped by C `atoi` (`isspace`). -/
def isSpaceChar (c : Char) : Bool :=
  c = ' ' || c = '\t' || c = '\n' || c = '\x0b' || c = '\x0c' || c = '\r'

/-- Drop the leading whitespace of a character list. -/
def dropSpaces : List Char → List Char
  | [] => []
  | c :: cs => if isSpaceChar c then dropSpaces cs else c :: cs

/-- Numeric value of a decimal digit character. -/
def digitVal (c : Char) : ℕ := c.toNat - 48

/-- Accumulate the leading decimal digits of a character list. -/
def readDigits : List Char → ℕ → ℕ
  | [], acc => acc
  | c :: cs, acc => if c.isDigit then readDigits cs (10 * acc + digitVal c) else acc

/-- Model of C `atoi`: skip whitespace, optional sign, leading digits;
a string with no leading digits yields 0. -/
def atoiModel (s : String) : Int :=
  match dropSpaces s.toList with
  | [] => 0
  | c :: cs =>
    if c = '-' then -(readDigits cs 0 : Int)
    else if c = '+' then (readDigits cs 0 : Int)
    else (readDigits (c :: cs) 0 : Int)

/-! ### The argument-scanning loop of `main` (src lines 122-132)

`args` stands for `argv[1] .. argv[argc-1]`.  The C++ loop index runs while
`argcIterator < argc-1`, so the final token is never examined as a flag; a
`"-t"`/`"-i"` match converts the immediately following token with `atoi` and
skips it; a later match overwrites an earlier one.  The numeric converter is a
parameter so that the loop's behaviour is proved for every converter. -/

/-- One pass of the scanning loop over the remaining arguments, carrying the
current `(t, i)` pair.  A singleton remainder is the final token, which the
loop bound `argcIterator < argc-1` excludes from flag matching. -/
def parseLoop (atoi : String → Int) : List String → Int × Int → Int × Int
  | [], st => st
  | [_], st => st
  | x :: y :: rest, (t, i) =>
    if x = "-t" then parseLoop atoi rest (atoi y, i)
    else if x = "-i" then parseLoop atoi rest (t, atoi y)
    else parseLoop atoi (y :: rest) (t, i)

/-- The full argument scan: defaults `t = 4`, `i = 10000` (src lines 108-109),
then the loop. -/
def parseArgs (atoi : String → Int) (args : List String) : Int × Int :=
  parseLoop atoi args (4, 10000)

/-- A flag-aligned argument list: scanning it never leaves a trailing
`"-t"`/`"-i"` in flag position that would consume into appended arguments. -/
def alignedArgs : List String → Bool
  | [] => true
  | [x] => !(x = "-t" || x = "-i")
  | x :: y :: rest =>
    if x = "-t" || x = "-i" then alignedArgs rest else alignedArgs (y :: rest)

theorem parseLoop_append (atoi : String → Int) (tail : List String) :
    ∀ (args : List String), alignedArgs args = true →
      ∀ st, parseLoop atoi (args ++ tail) st = parseLoop atoi tail (parseLoop atoi args st)
  | [], _, st => by simp [parseLoop]
  | [x], h, st => by
      have hx : ¬(x = "-t") ∧ ¬(x = "-i") := by
        simpa [alignedArgs] using h
      cases tail with
      | nil => simp [parseLoop]
      | cons y rest => simp [parseLoop, hx.1, hx.2]
  | x :: y :: rest, h, st => by
      by_cases h1 : x = "-t"
      · have hrest : alignedArgs rest = true := by simpa [alignedArgs, h1] using h
        obtain ⟨t, i⟩ := st
        simp only [List.cons_append, parseLoop, h1, if_pos rfl]
        exact parseLoop_append atoi tail rest hrest (atoi y, i)
      · by_cases h2 : x = "-i"
        · have hrest : alignedArgs rest = true := by simpa [alignedArgs, h1, h2] using h
          obtain ⟨t, i⟩ := st
          simp only [List.cons_append, parseLoop, h1, h2, if_neg h1, if_pos rfl]
          exact parseLoop_append atoi tail rest hrest (t, atoi y)
        · have hrest : alignedArgs (y :: rest) = true := by
            simpa [alignedArgs, h1, h2] using h
          obtain ⟨t, i⟩ := st
          simp only [List.cons_append, parseLoop, if_neg h1, if_neg h2]
          exact parseLoop_append atoi tail (y :: rest) hrest (t, i)

theorem parseLoop_no_flags (atoi : String → Int) :
    ∀ (args : List String), "-t" ∉ args → "-i" ∉ args →
      ∀ st, parseLoop atoi args st = st
  | [], _, _, st => rfl
  | [_], _, _, st => rfl
  | x :: y :: rest, ht, hi, st => by
      have h1 : ¬(x = "-t") := fun hx => ht (hx ▸ List.mem_cons_self x (y :: rest))
      have h2 : ¬(x = "-i") := fun hx => hi (hx ▸ List.mem_cons_self x (y :: rest))
      obtain ⟨t, i⟩ := st
      simp only [parseLoop, if_neg h1, if_neg h2]
      exact parseLoop_no_flags atoi (y :: rest)
        (fun hm => ht (List.mem_cons_of_mem x hm))
        (fun hm => hi (List.mem_cons_of_mem x hm)) (t, i)

/-! ### Event traces of the two mutex-protected workers (src lines 43-50, 64-70)

`incrementiTimesMutexLock` spins on the gate, calls `lock()`, performs the
increment loop, then calls `unlock()`.  `incrementiTimesLockGuard` spins on
the gate, constructs a `lock_guard` (acquisition), performs the same loop,
and the guard releases the mutex at scope exit.  Each function is embedded as
the sequence of lock/increment events it performs once the gate is open; a
closed gate means the spin loop never terminates, rendered as `none`. -/

inductive LockEv where
  | lockAcq
  | incr
  | lockRel
deriving DecidableEq

/-- The `for` loop body (src 46-48 and 67-69): `i` plain increments. -/
def incLoopTrace : ℕ → List LockEv
  | 0 => []
  | n + 1 => LockEv.incr :: incLoopTrace n

/-- Events of `incrementiTimesMutexLock` (src 43-50): explicit
`sharedCounter_mtx.lock()` before the loop, explicit `unlock()` after it. -/
def incrementiTimesMutexLockTrace (gate : Bool) (i : ℕ) : Option (List LockEv) :=
  if gate then some (LockEv.lockAcq :: (incLoopTrace i ++ [LockEv.lockRel])) else none

/-- Events of `incrementiTimesLockGuard` (src 64-70): the `lock_guard`
constructor acquires before the loop, its destructor releases at scope
exit after the loop. -/
def incrementiTimesLockGuardTrace (gate : Bool) (i : ℕ) : Option (List LockEv) :=
  if gate then some (LockEv.lockAcq :: (incLoopTrace i ++ [LockEv.lockRel])) else none

/-- Effect of an event trace on the shared counter: only `incr` changes it. -/
def execLockEvs : ℕ → List LockEv → ℕ
  | c, [] => c
  | c, LockEv.incr :: es => execLockEvs (c + 1) es
  | c, LockEv.lockAcq :: es => execLockEvs c es
  | c, LockEv.lockRel :: es => execLockEvs c es

theorem execLockEvs_incLoop (i : ℕ) : ∀ c rest,
    execLockEvs c (incLoopTrace i ++ rest) = execLockEvs (c + i) rest := by
  induction i with
  | zero => intro c rest; simp [incLoopTrace]
  | succ n ih =>
      intro c rest
      show execLockEvs (c + 1) (incLoopTrace n ++ rest) = execLockEvs (c + (n + 1)) rest
      rw [ih]
      congr 1
      omega

theorem count_incLoop (i : ℕ) : (incLoopTrace i).count LockEv.incr = i := by
  induction i with
  | zero => rfl
  | succ n ih => simp [incLoopTrace, List.count_cons, ih]

theorem count_incLoop_acq (i : ℕ) : (incLoopTrace i).count LockEv.lockAcq = 0 := by
  induction i with
  | zero => rfl
  | succ n ih => simp [incLoopTrace, List.count_cons, ih]

theorem count_incLoop_rel (i : ℕ) : (incLoopTrace i).count LockEv.lockRel = 0 := by
  induction i with
  | zero => rfl
  | succ n ih => simp [incLoopTrace, List.count_cons, ih]

/-! ### Runner-level event order of each trial of `main`

Each trial block of `main` performs, in source order: the spawn loop, the
`t1` timestamp, `start = true`, the join loop, (for the LocalCounter trial
only: the reduction loop, src 245-247), the `t2` timestamp, the output line,
and the resets. -/

inductive RunnerEv where
  | spawnAll
  | recordStart
  | openGate
  | joinAll
  | reduceSlots
  | recordEnd
  | emitRecord
  | resetState
deriving DecidableEq

/-- RaceCondition trial, src 143-157. -/
def raceTrialSeq : List RunnerEv :=
  [RunnerEv.spawnAll, RunnerEv.recordStart, RunnerEv.openGate, RunnerEv.joinAll,
   RunnerEv.recordEnd, RunnerEv.emitRecord, RunnerEv.resetState]

/-- MutexLock trial, src 166-180. -/
def mutexTrialSeq : List RunnerEv :=
  [RunnerEv.spawnAll, RunnerEv.recordStart, RunnerEv.openGate, RunnerEv.joinAll,
   RunnerEv.recordEnd, RunnerEv.emitRecord, RunnerEv.resetState]

/-- LockGuard trial, src 189-203. -/
def lockGuardTrialSeq : List RunnerEv :=
  [RunnerEv.spawnAll, RunnerEv.recordStart, RunnerEv.openGate, RunnerEv.joinAll,
   RunnerEv.recordEnd, RunnerEv.emitRecord, RunnerEv.resetState]

/-- Atomic trial, src 212-226. -/
def atomicTrialSeq : List RunnerEv :=
  [RunnerEv.spawnAll, RunnerEv.recordStart, RunnerEv.openGate, RunnerEv.joinAll,
   RunnerEv.recordEnd, RunnerEv.emitRecord, RunnerEv.resetState]

/-- LocalCounter trial, src 236-255: the reduction loop (src 245-247) sits
between the join loop (src 242-244) and the `t2` timestamp (src 248). -/
def localCounterTrialSeq : List RunnerEv :=
  [RunnerEv.spawnAll, RunnerEv.recordStart, RunnerEv.openGate, RunnerEv.joinAll,
   RunnerEv.reduceSlots, RunnerEv.recordEnd, RunnerEv.emitRecord, RunnerEv.resetState]

/-! ### Fine-grained order of the LocalCounter spawn loop (src 236-239)

Iteration `k` of the loop executes `localCounterVector.push_back(0)` and then
spawns worker `k`; afterwards `main` records `t1` (src 240) and opens the
gate (src 241). -/

inductive SetupEv where
  | pushSlot (k : ℕ)
  | spawnWorker (k : ℕ)
  | recordStart
  | openGate
deriving DecidableEq

/-- The spawn loop of the LocalCounter trial: iteration `k` appends slot `k`
then spawns worker `k`. -/
def localSetupLoop : ℕ → List SetupEv
  | 0 => []
  | n + 1 => localSetupLoop n ++ [SetupEv.pushSlot n, SetupEv.spawnWorker n]

/-- The full pre-gate phase of the LocalCounter trial (src 236-241). -/
def localCounterSetup (W : ℕ) : List SetupEv :=
  localSetupLoop W ++ [SetupEv.recordStart, SetupEv.openGate]

/-- Event discriminators used to state ordering properties decidably. -/
def isPushEv : SetupEv → Bool
  | SetupEv.pushSlot _ => true
  | _ => false

def isSpawnEv : SetupEv → Bool
  | SetupEv.spawnWorker _ => true
  | _ => false

/-- The ordering property claimed of the spawn loop: every slot append
precedes every worker spawn. -/
def pushesBeforeAllSpawns (l : List SetupEv) : Prop :=
  ∀ p q : Fin l.length,
    isPushEv (l.get p) = true → isSpawnEv (l.get q) = true → (p : ℕ) < (q : ℕ)

instance (l : List SetupEv) : Decidable (pushesBeforeAllSpawns l) := by
  unfold pushesBeforeAllSpawns; infer_instance

theorem localSetupLoop_length (W : ℕ) : (localSetupLoop W).length = 2 * W := by
  induction W with
  | zero => rfl
  | succ n ih => simp [localSetupLoop, ih]; ring

theorem localSetupLoop_get (W k : ℕ) (h : k < W) :
    (localSetupLoop W)[2 * k]? = some (SetupEv.pushSlot k) ∧
    (localSetupLoop W)[2 * k + 1]? = some (SetupEv.spawnWorker k) := by
  induction W with
  | zero => omega
  | succ n ih =>
      rcases Nat.lt_succ_iff_lt_or_eq.mp h with h' | h'
      · have hlen := localSetupLoop_length n
        have h1 : 2 * k < (localSetupLoop n).length := by omega
        have h2 : 2 * k + 1 < (localSetupLoop n).length := by omega
        constructor
        · rw [localSetupLoop, List.getElem?_append_left h1]; exact (ih h').1
        · rw [localSetupLoop, List.getElem?_append_left h2]; exact (ih h').2
      · subst h'
        have hlen := localSetupLoop_length k
        constructor
        · rw [localSetupLoop, List.getElem?_append_right (by omega)]
          simp [hlen]
        · rw [localSetupLoop, List.getElem?_append_right (by omega)]
          have : 2 * k + 1 - (localSetupLoop k).length = 1 := by omega
          simp [this]

theorem localCounterSetup_get (W k : ℕ) (h : k < W) :
    (localCounterSetup W)[2 * k]? = some (SetupEv.pushSlot k) ∧
    (localCounterSetup W)[2 * k + 1]? = some (SetupEv.spawnWorker k) ∧
    (localCounterSetup W)[2 * W + 1]? = some SetupEv.openGate := by
  have hlen := localSetupLoop_length W
  have hg := localSetupLoop_get W k h
  refine ⟨?_, ?_, ?_⟩
  · rw [localCounterSetup, List.getElem?_append_left (by omega)]; exact hg.1
  · rw [localCounterSetup, List.getElem?_append_left (by omega)]; exact hg.2
  · rw [localCounterSetup, List.getElem?_append_right (by omega)]
    have : 2 * W + 1 - (localSetupLoop W).length = 1 := by omega
    simp [this]

/-! ### A sum-over-update helper shared by the trial models -/

theorem sum_update_aux {α : Type} (W : ℕ) (g : α → ℕ) (f : ℕ → α) (w : ℕ)
    (hw : w < W) (v : α) :
    (∑ x ∈ Finset.range W, g (Function.update f w v x)) + g (f w)
      = (∑ x ∈ Finset.range W, g (f x)) + g v := by
  have hmem : w ∈ Finset.range W := Finset.mem_range.mpr hw
  have h1 : (∑ x ∈ Finset.range W, g (Function.update f w v x))
      = g v + ∑ x ∈ (Finset.range W).erase w, g (f x) := by
    rw [← Finset.add_sum_erase _ (fun x => g (Function.update f w v x)) hmem,
      Function.update_same]
    refine congrArg (fun z => g v + z) (Finset.sum_congr rfl ?_)
    intro x hx
    rw [Function.update_noteq (Finset.ne_of_mem_erase hx)]
  have h2 : (∑ x ∈ Finset.range W, g (f x))
      = g (f w) + ∑ x ∈ (Finset.range W).erase w, g (f x) :=
    (Finset.add_sum_erase _ (fun x => g (f x)) hmem).symm
  omega

/-! ### The RaceCondition trial (src lines 25-30 and 143-157)

`incrementiTimesRaceCondition` spins on the gate and then performs `i`
unsynchronized `++sharedCounter` operations.  Each `++` is a non-atomic
read-modify-write, embedded as two separate steps — a read of the shared
counter into a worker-private register and a write of `register + 1` back —
which may interleave arbitrarily with other workers' steps (the lost-update
model of the data race).  The runner spawns `W` workers, then opens the gate
(src 147), then joins. -/

/-- Local state of one RaceCondition worker: spinning on the gate, or in the
loop with `rem` iterations left and, between the read and the write of one
`++`, a pending register value. -/
inductive RaceW where
  | spinning
  | running (rem : ℕ) (pending : Option ℕ)
deriving DecidableEq

/-- Global state of the RaceCondition trial: how many workers the runner has
spawned, the gate flag, the shared counter, and every worker's local state. -/
structure RaceState where
  spawned : ℕ
  gate : Bool
  c : ℕ
  ws : ℕ → RaceW

/-- State before the trial: nothing spawned, gate closed, counter zero. -/
def raceInit : RaceState :=
  { spawned := 0, gate := false, c := 0, ws := fun _ => RaceW.spinning }

/-- Interleaved small steps of the RaceCondition trial with `W` workers and
`I` iterations per worker. -/
inductive RaceStep (W I : ℕ) : RaceState → RaceState → Prop where
  | spawn (s : RaceState) (h : s.spawned < W) :
      RaceStep W I s { s with spawned := s.spawned + 1 }
  | openGate (s : RaceState) (h : s.spawned = W) (h2 : s.gate = false) :
      RaceStep W I s { s with gate := true }
  | pass (s : RaceState) (w : ℕ) (hw : w < W) (hg : s.gate = true)
      (hs : s.ws w = RaceW.spinning) :
      RaceStep W I s { s with ws := Function.update s.ws w (RaceW.running I none) }
  | read (s : RaceState) (w n : ℕ) (hw : w < W)
      (hs : s.ws w = RaceW.running (n + 1) none) :
      RaceStep W I s
        { s with ws := Function.update s.ws w (RaceW.running (n + 1) (some s.c)) }
  | write (s : RaceState) (w n r : ℕ) (hw : w < W)
      (hs : s.ws w = RaceW.running (n + 1) (some r)) :
      RaceStep W I s
        { s with c := r + 1, ws := Function.update s.ws w (RaceW.running n none) }

/-- States reachable in the RaceCondition trial. -/
abbrev RaceReachable (W I : ℕ) : RaceState → Prop :=
  Relation.ReflTransGen (RaceStep W I) raceInit

/-- A finished RaceCondition trial: all workers spawned and every worker has
completed its loop (so the runner's join loop returns). -/
def RaceFinal (W I : ℕ) (s : RaceState) : Prop :=
  s.spawned = W ∧ ∀ w < W, s.ws w = RaceW.running 0 none

/-- `v` is a possible final value of `sharedCounter` in a RaceCondition
trial. -/
def RaceOutcome (W I v : ℕ) : Prop :=
  ∃ s, RaceReachable W I s ∧ RaceFinal W I s ∧ s.c = v

/-- Number of writes a worker in the given local state has completed. -/
def raceWrites (I : ℕ) : RaceW → ℕ
  | RaceW.spinning => 0
  | RaceW.running n _ => I - n

/-- Total number of completed counter writes in a trial state. -/
def totalRaceWrites (W I : ℕ) (s : RaceState) : ℕ :=
  ∑ w ∈ Finset.range W, raceWrites I (s.ws w)

/-- Inductive invariant of the RaceCondition trial. -/
def RaceInv (W I : ℕ) (s : RaceState) : Prop :=
  s.spawned ≤ W ∧
  (s.gate = true → s.spawned = W) ∧
  (s.gate = false → (∀ w, s.ws w = RaceW.spinning) ∧ s.c = 0) ∧
  s.c ≤ totalRaceWrites W I s ∧
  (∀ w n r, s.ws w = RaceW.running n (some r) → r ≤ totalRaceWrites W I s) ∧
  (totalRaceWrites W I s = 0 ∨ 1 ≤ s.c) ∧
  (∀ w n p, s.ws w = RaceW.running n p → n ≤ I)

theorem race_inv (W I : ℕ) : ∀ s, RaceReachable W I s → RaceInv W I s := by
  intro s h
  induction h with
  | refl =>
      refine ⟨Nat.zero_le W, ?_, fun _ => ⟨fun _ => rfl, rfl⟩, ?_, ?_, ?_, ?_⟩
      · intro hg; exact Bool.noConfusion hg
      · exact Nat.zero_le _
      · intro w n r hw; exact RaceW.noConfusion hw
      · exact Or.inl (by simp [totalRaceWrites, raceInit, raceWrites])
      · intro w n p hw; exact RaceW.noConfusion hw
  | @tail b cst hab hbc ih =>
      obtain ⟨i1, i2, i3, i4, i5, i6, i7⟩ := ih
      simp only [totalRaceWrites] at i4 i5 i6
      cases hbc with
      | spawn h =>
          refine ⟨?_, ?_, i3, i4, i5, i6, i7⟩
          · dsimp only; omega
          · intro hg
            exact absurd (i2 hg) (by omega)
      | openGate h h2 =>
          refine ⟨i1, fun _ => h, ?_, i4, i5, i6, i7⟩
          intro hgf
          dsimp only at hgf
          exact Bool.noConfusion hgf
      | pass w hw hg hs =>
          have hupd := sum_update_aux W (raceWrites I) b.ws w hw (RaceW.running I none)
          have hold : raceWrites I (b.ws w) = 0 := by rw [hs]; rfl
          have hnew : raceWrites I (RaceW.running I none) = I - I := rfl
          rw [hold, hnew] at hupd
          refine ⟨i1, i2, ?_, ?_, ?_, ?_, ?_⟩
          · intro hgf
            dsimp only at hgf
            rw [hg] at hgf
            exact Bool.noConfusion hgf
          · simp only [totalRaceWrites]
            omega
          · intro w' n' r' hw'
            simp only [totalRaceWrites]
            dsimp only at hw'
            by_cases hww : w' = w
            · subst hww
              rw [Function.update_same] at hw'
              simp at hw'
            · rw [Function.update_noteq hww] at hw'
              have := i5 w' n' r' hw'
              omega
          · simp only [totalRaceWrites]
            omega
          · intro w' n' p hw'
            dsimp only at hw'
            by_cases hww : w' = w
            · subst hww
              rw [Function.update_same] at hw'
              simp only [RaceW.running.injEq] at hw'
              omega
            · rw [Function.update_noteq hww] at hw'
              exact i7 w' n' p hw'
      | read w n hw hs =>
          have hupd := sum_update_aux W (raceWrites I) b.ws w hw
            (RaceW.running (n + 1) (some b.c))
          have hold : raceWrites I (b.ws w) = I - (n + 1) := by rw [hs]; rfl
          have hnew : raceWrites I (RaceW.running (n + 1) (some b.c)) = I - (n + 1) := rfl
          rw [hold, hnew] at hupd
          refine ⟨i1, i2, ?_, ?_, ?_, ?_, ?_⟩
          · intro hgf
            dsimp only at hgf
            have h0 := (i3 hgf).1 w
            rw [hs] at h0
            exact RaceW.noConfusion h0
          · simp only [totalRaceWrites]
            omega
          · intro w' n' r' hw'
            simp only [totalRaceWrites]
            dsimp only at hw'
            by_cases hww : w' = w
            · subst hww
              rw [Function.update_same] at hw'
              simp only [RaceW.running.injEq, Option.some.injEq] at hw'
              omega
            · rw [Function.update_noteq hww] at hw'
              have := i5 w' n' r' hw'
              omega
          · simp only [totalRaceWrites]
            omega
          · intro w' n' p hw'
            have hn1 := i7 w (n + 1) none hs
            dsimp only at hw'
            by_cases hww : w' = w
            · subst hww
              rw [Function.update_same] at hw'
              simp only [RaceW.running.injEq] at hw'
              omega
            · rw [Function.update_noteq hww] at hw'
              exact i7 w' n' p hw'
      | write w n r hw hs =>
          have hn1 : n + 1 ≤ I := i7 w (n + 1) (some r) hs
          have hupd := sum_update_aux W (raceWrites I) b.ws w hw (RaceW.running n none)
          have hold : raceWrites I (b.ws w) = I - (n + 1) := by rw [hs]; rfl
          have hnew : raceWrites I (RaceW.running n none) = I - n := rfl
          rw [hold, hnew] at hupd
          have hr : r ≤ ∑ x ∈ Finset.range W, raceWrites I (b.ws x) := i5 w (n + 1) r hs
          refine ⟨i1, i2, ?_, ?_, ?_, ?_, ?_⟩
          · intro hgf
            dsimp only at hgf
            have h0 := (i3 hgf).1 w
            rw [hs] at h0
            exact RaceW.noConfusion h0
          · simp only [totalRaceWrites]
            omega
          · intro w' n' r' hw'
            simp only [totalRaceWrites]
            dsimp only at hw'
            by_cases hww : w' = w
            · subst hww
              rw [Function.update_same] at hw'
              simp at hw'
            · rw [Function.update_noteq hww] at hw'
              have := i5 w' n' r' hw'
              omega
          · dsimp only
            omega
          · intro w' n' p hw'
            dsimp only at hw'
            by_cases hww : w' = w
            · subst hww
              rw [Function.update_same] at hw'
              simp only [RaceW.running.injEq] at hw'
              omega
            · rw [Function.update_noteq hww] at hw'
              exact i7 w' n' p hw'

theorem totalRaceWrites_final (W I : ℕ) (s : RaceState) (hf : RaceFinal W I s) :
    totalRaceWrites W I s = W * I := by
  unfold totalRaceWrites
  have h : ∀ w ∈ Finset.range W, raceWrites I (s.ws w) = I := by
    intro w hw
    rw [hf.2 w (Finset.mem_range.mp hw)]
    simp [raceWrites]
  rw [Finset.sum_congr rfl h, Finset.sum_const, Finset.card_range, smul_eq_mul]

theorem race_final_le (W I : ℕ) (s : RaceState) (hr : RaceReachable W I s)
    (hf : RaceFinal W I s) : s.c ≤ W * I := by
  have := (race_inv W I s hr).2.2.2.1
  rwa [totalRaceWrites_final W I s hf] at this

theorem race_final_pos (W I : ℕ) (s : RaceState) (hr : RaceReachable W I s)
    (hf : RaceFinal W I s) (hW : 1 ≤ W) (hI : 1 ≤ I) : 1 ≤ s.c := by
  have h6 := (race_inv W I s hr).2.2.2.2.2.1
  rw [totalRaceWrites_final W I s hf] at h6
  rcases h6 with h | h
  · exact absurd h (by positivity)
  · exact h

/-- Extra invariant for the single-worker trial: execution is sequential, so
the counter equals the number of completed writes exactly. -/
def RaceInv1 (I : ℕ) (s : RaceState) : Prop :=
  s.c = totalRaceWrites 1 I s ∧
  (∀ w, w ≠ 0 → s.ws w = RaceW.spinning) ∧
  (∀ w n r, s.ws w = RaceW.running n (some r) → r = s.c)

theorem race_inv1 (I : ℕ) : ∀ s, RaceReachable 1 I s → RaceInv1 I s := by
  intro s h
  induction h with
  | refl =>
      refine ⟨by simp [totalRaceWrites, raceInit, raceWrites], fun _ _ => rfl, ?_⟩
      intro w n r hw
      exact RaceW.noConfusion hw
  | @tail b cst hab hbc ih =>
      obtain ⟨i1, i2, i3⟩ := ih
      simp only [totalRaceWrites] at i1
      cases hbc with
      | spawn h => exact ⟨i1, i2, i3⟩
      | openGate h h2 => exact ⟨i1, i2, i3⟩
      | pass w hw hg hs =>
          have hw0 : w = 0 := by omega
          subst hw0
          have hupd := sum_update_aux 1 (raceWrites I) b.ws 0 (by omega)
            (RaceW.running I none)
          have hold : raceWrites I (b.ws 0) = 0 := by rw [hs]; rfl
          have hnew : raceWrites I (RaceW.running I none) = I - I := rfl
          rw [hold, hnew] at hupd
          refine ⟨?_, ?_, ?_⟩
          · simp only [totalRaceWrites]
            omega
          · intro w' hww
            dsimp only
            rw [Function.update_noteq hww]
            exact i2 w' hww
          · intro w' n' r' hw'
            dsimp only at hw'
            by_cases hww : w' = 0
            · subst hww
              rw [Function.update_same] at hw'
              simp at hw'
            · rw [Function.update_noteq hww] at hw'
              rw [i2 w' hww] at hw'
              exact RaceW.noConfusion hw'
      | read w n hw hs =>
          have hw0 : w = 0 := by omega
          subst hw0
          have hupd := sum_update_aux 1 (raceWrites I) b.ws 0 (by omega)
            (RaceW.running (n + 1) (some b.c))
          have hold : raceWrites I (b.ws 0) = I - (n + 1) := by rw [hs]; rfl
          have hnew : raceWrites I (RaceW.running (n + 1) (some b.c)) = I - (n + 1) := rfl
          rw [hold, hnew] at hupd
          refine ⟨?_, ?_, ?_⟩
          · simp only [totalRaceWrites]
            omega
          · intro w' hww
            dsimp only
            rw [Function.update_noteq hww]
            exact i2 w' hww
          · intro w' n' r' hw'
            dsimp only at hw'
            by_cases hww : w' = 0
            · subst hww
              rw [Function.update_same] at hw'
              simp only [RaceW.running.injEq, Option.some.injEq] at hw'
              dsimp only
              omega
            · rw [Function.update_noteq hww] at hw'
              rw [i2 w' hww] at hw'
              exact RaceW.noConfusion hw'
      | write w n r hw hs =>
          have hw0 : w = 0 := by omega
          subst hw0
          have hinv := race_inv 1 I b hab
          have hn1 : n + 1 ≤ I := hinv.2.2.2.2.2.2 0 (n + 1) (some r) hs
          have hupd := sum_update_aux 1 (raceWrites I) b.ws 0 (by omega)
            (RaceW.running n none)
          have hold : raceWrites I (b.ws 0) = I - (n + 1) := by rw [hs]; rfl
          have hnew : raceWrites I (RaceW.running n none) = I - n := rfl
          rw [hold, hnew] at hupd
          have hr : r = b.c := i3 0 (n + 1) r hs
          refine ⟨?_, ?_, ?_⟩
          · simp only [totalRaceWrites]
            omega
          · intro w' hww
            dsimp only
            rw [Function.update_noteq hww]
            exact i2 w' hww
          · intro w' n' r' hw'
            dsimp only at hw'
            by_cases hww : w' = 0
            · subst hww
              rw [Function.update_same] at hw'
              simp at hw'
            · rw [Function.update_noteq hww] at hw'
              rw [i2 w' hww] at hw'
              exact RaceW.noConfusion hw'

theorem race_final_one (I : ℕ) (s : RaceState) (hr : RaceReachable 1 I s)
    (hf : RaceFinal 1 I s) : s.c = I := by
  have h1 := (race_inv1 I s hr).1
  rw [totalRaceWrites_final 1 I s hf] at h1
  omega

theorem race_outcome_le (W I v : ℕ) (h : RaceOutcome W I v) : v ≤ W * I := by
  obtain ⟨s, hr, hf, hc⟩ := h
  exact hc ▸ race_final_le W I s hr hf

theorem race_outcome_one (I v : ℕ) (h : RaceOutcome 1 I v) : v = I := by
  obtain ⟨s, hr, hf, hc⟩ := h
  exact hc ▸ race_final_one I s hr hf

theorem race_outcome_pos (W I v : ℕ) (h : RaceOutcome W I v) (hW : 1 ≤ W)
    (hI : 1 ≤ I) : 1 ≤ v := by
  obtain ⟨s, hr, hf, hc⟩ := h
  exact hc ▸ race_final_pos W I s hr hf hW hI

/-! ### The MutexLock trial (src lines 43-50 and 166-180)

`incrementiTimesMutexLock` spins on the gate, acquires `sharedCounter_mtx`,
performs `i` non-atomic `++sharedCounter` operations (again embedded as
read/write pairs), and releases the mutex.  The mutex is modelled by an
`Option ℕ` holder field: `lock` succeeds only when it is `none`. -/

/-- Local state of one MutexLock worker. -/
inductive MutexW where
  | spinning
  | lockWaiting
  | holding (rem : ℕ) (pending : Option ℕ)
  | finished
deriving DecidableEq

/-- Global state of a mutex-protected trial. -/
structure MutexState where
  spawned : ℕ
  gate : Bool
  mtx : Option ℕ
  c : ℕ
  ws : ℕ → MutexW

/-- State before the trial. -/
def mutexInit : MutexState :=
  { spawned := 0, gate := false, mtx := none, c := 0, ws := fun _ => MutexW.spinning }

/-- Interleaved small steps of the MutexLock trial: spawn, gate opening,
gate passing, lock acquisition (explicit `lock()`, src 45), the read/write
halves of `++sharedCounter` inside the critical section (src 46-48), and
explicit `unlock()` (src 49). -/
inductive MutexStep (W I : ℕ) : MutexState → MutexState → Prop where
  | spawn (s : MutexState) (h : s.spawned < W) :
      MutexStep W I s { s with spawned := s.spawned + 1 }
  | openGate (s : MutexState) (h : s.spawned = W) (h2 : s.gate = false) :
      MutexStep W I s { s with gate := true }
  | pass (s : MutexState) (w : ℕ) (hw : w < W) (hg : s.gate = true)
      (hs : s.ws w = MutexW.spinning) :
      MutexStep W I s { s with ws := Function.update s.ws w MutexW.lockWaiting }
  | lock (s : MutexState) (w : ℕ) (hw : w < W) (hm : s.mtx = none)
      (hs : s.ws w = MutexW.lockWaiting) :
      MutexStep W I s
        { s with mtx := some w, ws := Function.update s.ws w (MutexW.holding I none) }
  | read (s : MutexState) (w n : ℕ) (hw : w < W)
      (hs : s.ws w = MutexW.holding (n + 1) none) :
      MutexStep W I s
        { s with ws := Function.update s.ws w (MutexW.holding (n + 1) (some s.c)) }
  | write (s : MutexState) (w n r : ℕ) (hw : w < W)
      (hs : s.ws w = MutexW.holding (n + 1) (some r)) :
      MutexStep W I s
        { s with c := r + 1, ws := Function.update s.ws w (MutexW.holding n none) }
  | unlock (s : MutexState) (w : ℕ) (hw : w < W)
      (hs : s.ws w = MutexW.holding 0 none) :
      MutexStep W I s
        { s with mtx := none, ws := Function.update s.ws w MutexW.finished }

/-- States reachable in the MutexLock trial. -/
abbrev MutexReachable (W I : ℕ) : MutexState → Prop :=
  Relation.ReflTransGen (MutexStep W I) mutexInit

/-- A finished mutex-protected trial: all workers spawned, done, joined. -/
def MutexFinal (W : ℕ) (s : MutexState) : Prop :=
  s.spawned = W ∧ ∀ w < W, s.ws w = MutexW.finished

/-- `v` is a possible final value of `sharedCounter` in a MutexLock trial. -/
def MutexOutcome (W I v : ℕ) : Prop :=
  ∃ s, MutexReachable W I s ∧ MutexFinal W s ∧ s.c = v

/-- Number of writes a MutexLock worker has completed. -/
def mutexWrites (I : ℕ) : MutexW → ℕ
  | MutexW.spinning => 0
  | MutexW.lockWaiting => 0
  | MutexW.holding n _ => I - n
  | MutexW.finished => I

/-- Whether a worker state is inside the critical section. -/
def isHolding : MutexW → Prop
  | MutexW.holding _ _ => True
  | _ => False

/-- Inductive invariant of the mutex-protected trial: bookkeeping, gate
discipline, mutual exclusion (`mtx` names every holder, so there is at most
one), counter write accounting, and coherence of the pending register of
the unique holder. -/
def MutexInv (W I : ℕ) (s : MutexState) : Prop :=
  s.spawned ≤ W ∧
  (s.gate = true → s.spawned = W) ∧
  (s.gate = false → (∀ w, s.ws w = MutexW.spinning) ∧ s.c = 0) ∧
  s.c = (∑ x ∈ Finset.range W, mutexWrites I (s.ws x)) ∧
  (∀ w, isHolding (s.ws w) → s.mtx = some w) ∧
  (∀ w n r, s.ws w = MutexW.holding n (some r) → r = s.c) ∧
  (∀ w n p, s.ws w = MutexW.holding n p → n ≤ I) ∧
  (∀ w, ¬ w < W → s.ws w = MutexW.spinning)

theorem mutex_inv (W I : ℕ) : ∀ s, MutexReachable W I s → MutexInv W I s := by
  intro s h
  induction h with
  | refl =>
      refine ⟨Nat.zero_le W, ?_, fun _ => ⟨fun _ => rfl, rfl⟩, ?_, ?_, ?_, ?_, ?_⟩
      · intro hg; exact Bool.noConfusion hg
      · simp [mutexInit, mutexWrites]
      · intro w hw; exact hw.elim
      · intro w n r hw; exact MutexW.noConfusion hw
      · intro w n p hw; exact MutexW.noConfusion hw
      · intro w _; rfl
  | @tail b cst hab hbc ih =>
      obtain ⟨i1, i2, i3, i4, i5, i6, i7, i8⟩ := ih
      cases hbc with
      | spawn h =>
          refine ⟨?_, ?_, i3, i4, i5, i6, i7, i8⟩
          · dsimp only; omega
          · intro hg
            exact absurd (i2 hg) (by omega)
      | openGate h h2 =>
          refine ⟨i1, fun _ => h, ?_, i4, i5, i6, i7, i8⟩
          intro hgf
          dsimp only at hgf
          exact Bool.noConfusion hgf
      | pass w hw hg hs =>
          have hupd := sum_update_aux W (mutexWrites I) b.ws w hw MutexW.lockWaiting
          have hold : mutexWrites I (b.ws w) = 0 := by rw [hs]; rfl
          have hnew : mutexWrites I MutexW.lockWaiting = 0 := rfl
          rw [hold, hnew] at hupd
          refine ⟨i1, i2, ?_, ?_, ?_, ?_, ?_, ?_⟩
          · intro hgf
            dsimp only at hgf
            rw [hg] at hgf
            exact Bool.noConfusion hgf
          · dsimp only
            omega
          · intro w' hw'
            dsimp only at hw' ⊢
            by_cases hww : w' = w
            · subst hww
              rw [Function.update_same] at hw'
              exact hw'.elim
            · rw [Function.update_noteq hww] at hw'
              exact i5 w' hw'
          · intro w' n' r' hw'
            dsimp only at hw' ⊢
            by_cases hww : w' = w
            · subst hww
              rw [Function.update_same] at hw'
              exact MutexW.noConfusion hw'
            · rw [Function.update_noteq hww] at hw'
              exact i6 w' n' r' hw'
          · intro w' n' p hw'
            dsimp only at hw'
            by_cases hww : w' = w
            · subst hww
              rw [Function.update_same] at hw'
              exact MutexW.noConfusion hw'
            · rw [Function.update_noteq hww] at hw'
              exact i7 w' n' p hw'
          · intro w' hnw
            dsimp only
            have hww : w' ≠ w := fun hcon => hnw (hcon ▸ hw)
            rw [Function.update_noteq hww]
            exact i8 w' hnw
      | lock w hw hm hs =>
          have hupd := sum_update_aux W (mutexWrites I) b.ws w hw (MutexW.holding I none)
          have hold : mutexWrites I (b.ws w) = 0 := by rw [hs]; rfl
          have hnew : mutexWrites I (MutexW.holding I none) = I - I := rfl
          rw [hold, hnew] at hupd
          refine ⟨i1, i2, ?_, ?_, ?_, ?_, ?_, ?_⟩
          · intro hgf
            dsimp only at hgf
            have h0 := (i3 hgf).1 w
            rw [hs] at h0
            exact MutexW.noConfusion h0
          · dsimp only
            omega
          · intro w' hw'
            dsimp only at hw' ⊢
            by_cases hww : w' = w
            · subst hww; rfl
            · rw [Function.update_noteq hww] at hw'
              have := i5 w' hw'
              rw [hm] at this
              exact Option.noConfusion this
          · intro w' n' r' hw'
            dsimp only at hw' ⊢
            by_cases hww : w' = w
            · subst hww
              rw [Function.update_same] at hw'
              simp at hw'
            · rw [Function.update_noteq hww] at hw'
              exact i6 w' n' r' hw'
          · intro w' n' p hw'
            dsimp only at hw'
            by_cases hww : w' = w
            · subst hww
              rw [Function.update_same] at hw'
              simp only [MutexW.holding.injEq] at hw'
              omega
            · rw [Function.update_noteq hww] at hw'
              exact i7 w' n' p hw'
          · intro w' hnw
            dsimp only
            have hww : w' ≠ w := fun hcon => hnw (hcon ▸ hw)
            rw [Function.update_noteq hww]
            exact i8 w' hnw
      | read w n hw hs =>
          have hupd := sum_update_aux W (mutexWrites I) b.ws w hw
            (MutexW.holding (n + 1) (some b.c))
          have hold : mutexWrites I (b.ws w) = I - (n + 1) := by rw [hs]; rfl
          have hnew : mutexWrites I (MutexW.holding (n + 1) (some b.c)) = I - (n + 1) := rfl
          rw [hold, hnew] at hupd
          refine ⟨i1, i2, ?_, ?_, ?_, ?_, ?_, ?_⟩
          · intro hgf
            dsimp only at hgf
            have h0 := (i3 hgf).1 w
            rw [hs] at h0
            exact MutexW.noConfusion h0
          · dsimp only
            omega
          · intro w' hw'
            dsimp only at hw' ⊢
            by_cases hww : w' = w
            · have hh : isHolding (b.ws w) := by rw [hs]; trivial
              rw [hww]
              exact i5 w hh
            · rw [Function.update_noteq hww] at hw'
              exact i5 w' hw'
          · intro w' n' r' hw'
            dsimp only at hw' ⊢
            by_cases hww : w' = w
            · subst hww
              rw [Function.update_same] at hw'
              simp only [MutexW.holding.injEq, Option.some.injEq] at hw'
              omega
            · rw [Function.update_noteq hww] at hw'
              exact i6 w' n' r' hw'
          · intro w' n' p hw'
            have hn1 := i7 w (n + 1) none hs
            dsimp only at hw'
            by_cases hww : w' = w
            · subst hww
              rw [Function.update_same] at hw'
              simp only [MutexW.holding.injEq] at hw'
              omega
            · rw [Function.update_noteq hww] at hw'
              exact i7 w' n' p hw'
          · intro w' hnw
            dsimp only
            have hww : w' ≠ w := fun hcon => hnw (hcon ▸ hw)
            rw [Function.update_noteq hww]
            exact i8 w' hnw
      | write w n r hw hs =>
          have hn1 : n + 1 ≤ I := i7 w (n + 1) (some r) hs
          have hupd := sum_update_aux W (mutexWrites I) b.ws w hw (MutexW.holding n none)
          have hold : mutexWrites I (b.ws w) = I - (n + 1) := by rw [hs]; rfl
          have hnew : mutexWrites I (MutexW.holding n none) = I - n := rfl
          rw [hold, hnew] at hupd
          have hr : r = b.c := i6 w (n + 1) r hs
          refine ⟨i1, i2, ?_, ?_, ?_, ?_, ?_, ?_⟩
          · intro hgf
            dsimp only at hgf
            have h0 := (i3 hgf).1 w
            rw [hs] at h0
            exact MutexW.noConfusion h0
          · dsimp only
            omega
          · intro w' hw'
            dsimp only at hw' ⊢
            by_cases hww : w' = w
            · have hh : isHolding (b.ws w) := by rw [hs]; trivial
              rw [hww]
              exact i5 w hh
            · rw [Function.update_noteq hww] at hw'
              exact i5 w' hw'
          · intro w' n' r' hw'
            dsimp only at hw' ⊢
            by_cases hww : w' = w
            · subst hww
              rw [Function.update_same] at hw'
              simp at hw'
            · -- another worker with a pending register would also be a
              -- holder, contradicting single ownership of the mutex
              rw [Function.update_noteq hww] at hw'
              have hh1 : isHolding (b.ws w') := by rw [hw']; trivial
              have hh2 : isHolding (b.ws w) := by rw [hs]; trivial
              have e1 := i5 w' hh1
              have e2 := i5 w hh2
              rw [e1] at e2
              exact absurd (Option.some.inj e2) hww
          · intro w' n' p hw'
            dsimp only at hw'
            by_cases hww : w' = w
            · subst hww
              rw [Function.update_same] at hw'
              simp only [MutexW.holding.injEq] at hw'
              omega
            · rw [Function.update_noteq hww] at hw'
              exact i7 w' n' p hw'
          · intro w' hnw
            dsimp only
            have hww : w' ≠ w := fun hcon => hnw (hcon ▸ hw)
            rw [Function.update_noteq hww]
            exact i8 w' hnw
      | unlock w hw hs =>
          have hupd := sum_update_aux W (mutexWrites I) b.ws w hw MutexW.finished
          have hold : mutexWrites I (b.ws w) = I - 0 := by rw [hs]; rfl
          have hnew : mutexWrites I MutexW.finished = I := rfl
          rw [hold, hnew] at hupd
          refine ⟨i1, i2, ?_, ?_, ?_, ?_, ?_, ?_⟩
          · intro hgf
            dsimp only at hgf
            have h0 := (i3 hgf).1 w
            rw [hs] at h0
            exact MutexW.noConfusion h0
          · dsimp only
            omega
          · intro w' hw'
            dsimp only at hw' ⊢
            by_cases hww : w' = w
            · subst hww
              rw [Function.update_same] at hw'
              exact hw'.elim
            · rw [Function.update_noteq hww] at hw'
              have hh2 : isHolding (b.ws w) := by rw [hs]; trivial
              have e1 := i5 w' hw'
              have e2 := i5 w hh2
              rw [e1] at e2
              exact absurd (Option.some.inj e2) hww
          · intro w' n' r' hw'
            dsimp only at hw' ⊢
            by_cases hww : w' = w
            · subst hww
              rw [Function.update_same] at hw'
              exact MutexW.noConfusion hw'
            · rw [Function.update_noteq hww] at hw'
              exact i6 w' n' r' hw'
          · intro w' n' p hw'
            dsimp only at hw'
            by_cases hww : w' = w
            · subst hww
              rw [Function.update_same] at hw'
              exact MutexW.noConfusion hw'
            · rw [Function.update_noteq hww] at hw'
              exact i7 w' n' p hw'
          · intro w' hnw
            dsimp only
            have hww : w' ≠ w := fun hcon => hnw (hcon ▸ hw)
            rw [Function.update_noteq hww]
            exact i8 w' hnw

theorem mutex_final_eq (W I : ℕ) (s : MutexState) (hr : MutexReachable W I s)
    (hf : MutexFinal W s) : s.c = W * I := by
  have h4 := (mutex_inv W I s hr).2.2.2.1
  have h : ∀ w ∈ Finset.range W, mutexWrites I (s.ws w) = I := by
    intro w hw
    rw [hf.2 w (Finset.mem_range.mp hw)]
    rfl
  rw [Finset.sum_congr rfl h, Finset.sum_const, Finset.card_range, smul_eq_mul] at h4
  exact h4

theorem mutex_outcome_eq (W I v : ℕ) (h : MutexOutcome W I v) : v = W * I := by
  obtain ⟨s, hr, hf, hc⟩ := h
  exact hc ▸ mutex_final_eq W I s hr hf

/-! ### The LockGuard trial (src lines 64-70 and 189-203)

`incrementiTimesLockGuard` is the scope-guarded twin of
`incrementiTimesMutexLock`: the `std::lock_guard` constructor acquires
`sharedCounter_mtx` before the loop and its destructor releases it at scope
exit after the loop.  The trial therefore has its own step relation,
transcribed from src 64-70, over the same state space. -/

/-- Interleaved small steps of the LockGuard trial: identical protocol to
`MutexStep` except that acquisition happens in the `lock_guard` constructor
(src 66) and release at scope exit (src 70). -/
inductive LockGuardStep (W I : ℕ) : MutexState → MutexState → Prop where
  | spawn (s : MutexState) (h : s.spawned < W) :
      LockGuardStep W I s { s with spawned := s.spawned + 1 }
  | openGate (s : MutexState) (h : s.spawned = W) (h2 : s.gate = false) :
      LockGuardStep W I s { s with gate := true }
  | pass (s : MutexState) (w : ℕ) (hw : w < W) (hg : s.gate = true)
      (hs : s.ws w = MutexW.spinning) :
      LockGuardStep W I s { s with ws := Function.update s.ws w MutexW.lockWaiting }
  | lock (s : MutexState) (w : ℕ) (hw : w < W) (hm : s.mtx = none)
      (hs : s.ws w = MutexW.lockWaiting) :
      LockGuardStep W I s
        { s with mtx := some w, ws := Function.update s.ws w (MutexW.holding I none) }
  | read (s : MutexState) (w n : ℕ) (hw : w < W)
      (hs : s.ws w = MutexW.holding (n + 1) none) :
      LockGuardStep W I s
        { s with ws := Function.update s.ws w (MutexW.holding (n + 1) (some s.c)) }
  | write (s : MutexState) (w n r : ℕ) (hw : w < W)
      (hs : s.ws w = MutexW.holding (n + 1) (some r)) :
      LockGuardStep W I s
        { s with c := r + 1, ws := Function.update s.ws w (MutexW.holding n none) }
  | unlock (s : MutexState) (w : ℕ) (hw : w < W)
      (hs : s.ws w = MutexW.holding 0 none) :
      LockGuardStep W I s
        { s with mtx := none, ws := Function.update s.ws w MutexW.finished }

/-- States reachable in the LockGuard trial. -/
abbrev LockGuardReachable (W I : ℕ) : MutexState → Prop :=
  Relation.ReflTransGen (LockGuardStep W I) mutexInit

/-- `v` is a possible final value of `sharedCounter` in a LockGuard trial. -/
def LockGuardOutcome (W I v : ℕ) : Prop :=
  ∃ s, LockGuardReachable W I s ∧ MutexFinal W s ∧ s.c = v

/-- The two mutex-protected step relations coincide. -/
theorem lockGuardStep_iff_mutexStep (W I : ℕ) (s1 s2 : MutexState) :
    LockGuardStep W I s1 s2 ↔ MutexStep W I s1 s2 := by
  constructor
  · intro h
    cases h with
    | spawn h => exact MutexStep.spawn s1 h
    | openGate h h2 => exact MutexStep.openGate s1 h h2
    | pass w hw hg hs => exact MutexStep.pass s1 w hw hg hs
    | lock w hw hm hs => exact MutexStep.lock s1 w hw hm hs
    | read w n hw hs => exact MutexStep.read s1 w n hw hs
    | write w n r hw hs => exact MutexStep.write s1 w n r hw hs
    | unlock w hw hs => exact MutexStep.unlock s1 w hw hs
  · intro h
    cases h with
    | spawn h => exact LockGuardStep.spawn s1 h
    | openGate h h2 => exact LockGuardStep.openGate s1 h h2
    | pass w hw hg hs => exact LockGuardStep.pass s1 w hw hg hs
    | lock w hw hm hs => exact LockGuardStep.lock s1 w hw hm hs
    | read w n hw hs => exact LockGuardStep.read s1 w n hw hs
    | write w n r hw hs => exact LockGuardStep.write s1 w n r hw hs
    | unlock w hw hs => exact LockGuardStep.unlock s1 w hw hs

theorem lockGuardReachable_iff (W I : ℕ) (s : MutexState) :
    LockGuardReachable W I s ↔ MutexReachable W I s := by
  constructor
  · intro h
    exact Relation.ReflTransGen.mono
      (fun a b hab => (lockGuardStep_iff_mutexStep W I a b).mp hab) h
  · intro h
    exact Relation.ReflTransGen.mono
      (fun a b hab => (lockGuardStep_iff_mutexStep W I a b).mpr hab) h

theorem lockGuard_final_eq (W I : ℕ) (s : MutexState)
    (hr : LockGuardReachable W I s) (hf : MutexFinal W s) : s.c = W * I :=
  mutex_final_eq W I s ((lockGuardReachable_iff W I s).mp hr) hf

theorem lockGuard_outcome_eq (W I v : ℕ) (h : LockGuardOutcome W I v) :
    v = W * I := by
  obtain ⟨s, hr, hf, hc⟩ := h
  exact hc ▸ lockGuard_final_eq W I s hr hf

/-! ### The Atomic trial (src lines 83-88 and 212-226)

`incrementiTimesAtomic` spins on the gate and performs `i`
`fetch_add(1, relaxed)` operations on `sharedCounterAtomic`.  Each fetch-add
is a single indivisible step. -/

/-- Local state of one Atomic worker. -/
inductive AtomicW where
  | spinning
  | running (rem : ℕ)
deriving DecidableEq

/-- Global state of the Atomic trial. -/
structure AtomicState where
  spawned : ℕ
  gate : Bool
  c : ℕ
  ws : ℕ → AtomicW

/-- State before the Atomic trial. -/
def atomicInit : AtomicState :=
  { spawned := 0, gate := false, c := 0, ws := fun _ => AtomicW.spinning }

/-- Interleaved small steps of the Atomic trial; `fetchAdd` is the atomic
read-modify-write of src line 86. -/
inductive AtomicStep (W I : ℕ) : AtomicState → AtomicState → Prop where
  | spawn (s : AtomicState) (h : s.spawned < W) :
      AtomicStep W I s { s with spawned := s.spawned + 1 }
  | openGate (s : AtomicState) (h : s.spawned = W) (h2 : s.gate = false) :
      AtomicStep W I s { s with gate := true }
  | pass (s : AtomicState) (w : ℕ) (hw : w < W) (hg : s.gate = true)
      (hs : s.ws w = AtomicW.spinning) :
      AtomicStep W I s { s with ws := Function.update s.ws w (AtomicW.running I) }
  | fetchAdd (s : AtomicState) (w n : ℕ) (hw : w < W)
      (hs : s.ws w = AtomicW.running (n + 1)) :
      AtomicStep W I s
        { s with c := s.c + 1, ws := Function.update s.ws w (AtomicW.running n) }

/-- States reachable in the Atomic trial. -/
abbrev AtomicReachable (W I : ℕ) : AtomicState → Prop :=
  Relation.ReflTransGen (AtomicStep W I) atomicInit

/-- A finished Atomic trial. -/
def AtomicFinal (W : ℕ) (s : AtomicState) : Prop :=
  s.spawned = W ∧ ∀ w < W, s.ws w = AtomicW.running 0

/-- `v` is a possible final value of `sharedCounterAtomic`. -/
def AtomicOutcome (W I v : ℕ) : Prop :=
  ∃ s, AtomicReachable W I s ∧ AtomicFinal W s ∧ s.c = v

/-- Number of fetch-adds an Atomic worker has completed. -/
def atomicWrites (I : ℕ) : AtomicW → ℕ
  | AtomicW.spinning => 0
  | AtomicW.running n => I - n

/-- Inductive invariant of the Atomic trial. -/
def AtomicInv (W I : ℕ) (s : AtomicState) : Prop :=
  s.spawned ≤ W ∧
  (s.gate = true → s.spawned = W) ∧
  (s.gate = false → (∀ w, s.ws w = AtomicW.spinning) ∧ s.c = 0) ∧
  s.c = (∑ x ∈ Finset.range W, atomicWrites I (s.ws x)) ∧
  (∀ w n, s.ws w = AtomicW.running n → n ≤ I)

theorem atomic_inv (W I : ℕ) : ∀ s, AtomicReachable W I s → AtomicInv W I s := by
  intro s h
  induction h with
  | refl =>
      refine ⟨Nat.zero_le W, ?_, fun _ => ⟨fun _ => rfl, rfl⟩, ?_, ?_⟩
      · intro hg; exact Bool.noConfusion hg
      · simp [atomicInit, atomicWrites]
      · intro w n hw; exact AtomicW.noConfusion hw
  | @tail b cst hab hbc ih =>
      obtain ⟨i1, i2, i3, i4, i5⟩ := ih
      cases hbc with
      | spawn h =>
          refine ⟨?_, ?_, i3, i4, i5⟩
          · dsimp only; omega
          · intro hg
            exact absurd (i2 hg) (by omega)
      | openGate h h2 =>
          refine ⟨i1, fun _ => h, ?_, i4, i5⟩
          intro hgf
          dsimp only at hgf
          exact Bool.noConfusion hgf
      | pass w hw hg hs =>
          have hupd := sum_update_aux W (atomicWrites I) b.ws w hw (AtomicW.running I)
          have hold : atomicWrites I (b.ws w) = 0 := by rw [hs]; rfl
          have hnew : atomicWrites I (AtomicW.running I) = I - I := rfl
          rw [hold, hnew] at hupd
          refine ⟨i1, i2, ?_, ?_, ?_⟩
          · intro hgf
            dsimp only at hgf
            rw [hg] at hgf
            exact Bool.noConfusion hgf
          · dsimp only
            omega
          · intro w' n' hw'
            dsimp only at hw'
            by_cases hww : w' = w
            · subst hww
              rw [Function.update_same] at hw'
              simp only [AtomicW.running.injEq] at hw'
              omega
            · rw [Function.update_noteq hww] at hw'
              exact i5 w' n' hw'
      | fetchAdd w n hw hs =>
          have hn1 : n + 1 ≤ I := i5 w (n + 1) hs
          have hupd := sum_update_aux W (atomicWrites I) b.ws w hw (AtomicW.running n)
          have hold : atomicWrites I (b.ws w) = I - (n + 1) := by rw [hs]; rfl
          have hnew : atomicWrites I (AtomicW.running n) = I - n := rfl
          rw [hold, hnew] at hupd
          refine ⟨i1, i2, ?_, ?_, ?_⟩
          · intro hgf
            dsimp only at hgf
            have h0 := (i3 hgf).1 w
            rw [hs] at h0
            exact AtomicW.noConfusion h0
          · dsimp only
            omega
          · intro w' n' hw'
            dsimp only at hw'
            by_cases hww : w' = w
            · subst hww
              rw [Function.update_same] at hw'
              simp only [AtomicW.running.injEq] at hw'
              omega
            · rw [Function.update_noteq hww] at hw'
              exact i5 w' n' hw'

theorem atomic_final_eq (W I : ℕ) (s : AtomicState) (hr : AtomicReachable W I s)
    (hf : AtomicFinal W s) : s.c = W * I := by
  have h4 := (atomic_inv W I s hr).2.2.2.1
  have h : ∀ w ∈ Finset.range W, atomicWrites I (s.ws w) = I := by
    intro w hw
    rw [hf.2 w (Finset.mem_range.mp hw)]
    simp [atomicWrites]
  rw [Finset.sum_congr rfl h, Finset.sum_const, Finset.card_range, smul_eq_mul] at h4
  exact h4

theorem atomic_outcome_eq (W I v : ℕ) (h : AtomicOutcome W I v) : v = W * I := by
  obtain ⟨s, hr, hf, hc⟩ := h
  exact hc ▸ atomic_final_eq W I s hr hf

/-! ### The LocalCounter trial (src lines 98-103 and 236-255)

`incrementiTimesLocalCounter` spins on the gate and performs `i` increments
of `localCounterVector[iterator]`, its privately owned slot.  After the join
loop, `main` sums every slot into `sharedCounter` (src 245-247). -/

/-- Local state of one LocalCounter worker. -/
inductive LocalW where
  | spinning
  | running (rem : ℕ)
deriving DecidableEq

/-- Global state of the LocalCounter parallel phase: the per-worker slots and
the worker states.  Slot `w` is written only by worker `w`. -/
structure LocalState where
  spawned : ℕ
  gate : Bool
  slots : ℕ → ℕ
  ws : ℕ → LocalW

/-- State before the LocalCounter trial: every slot zero-initialized by the
`push_back(0)` calls of src line 237. -/
def localInit : LocalState :=
  { spawned := 0, gate := false, slots := fun _ => 0, ws := fun _ => LocalW.spinning }

/-- Interleaved small steps of the LocalCounter parallel phase; `inc` is
`++localCounterVector[iterator]` (src 101), touching only slot `w`. -/
inductive LocalStep (W I : ℕ) : LocalState → LocalState → Prop where
  | spawn (s : LocalState) (h : s.spawned < W) :
      LocalStep W I s { s with spawned := s.spawned + 1 }
  | openGate (s : LocalState) (h : s.spawned = W) (h2 : s.gate = false) :
      LocalStep W I s { s with gate := true }
  | pass (s : LocalState) (w : ℕ) (hw : w < W) (hg : s.gate = true)
      (hs : s.ws w = LocalW.spinning) :
      LocalStep W I s { s with ws := Function.update s.ws w (LocalW.running I) }
  | inc (s : LocalState) (w n : ℕ) (hw : w < W)
      (hs : s.ws w = LocalW.running (n + 1)) :
      LocalStep W I s
        { s with slots := Function.update s.slots w (s.slots w + 1),
                 ws := Function.update s.ws w (LocalW.running n) }

/-- States reachable in the LocalCounter parallel phase. -/
abbrev LocalReachable (W I : ℕ) : LocalState → Prop :=
  Relation.ReflTransGen (LocalStep W I) localInit

/-- A finished LocalCounter parallel phase. -/
def LocalFinal (W : ℕ) (s : LocalState) : Prop :=
  s.spawned = W ∧ ∀ w < W, s.ws w = LocalW.running 0

/-- The reduction loop of src 245-247 starting from `sharedCounter = 0`:
`v` is the sum of all `W` slots of some final state. -/
def LocalOutcome (W I v : ℕ) : Prop :=
  ∃ s, LocalReachable W I s ∧ LocalFinal W s ∧ (∑ x ∈ Finset.range W, s.slots x) = v

/-- Inductive invariant of the LocalCounter parallel phase: each slot counts
its owner's completed increments, untouched slots stay zero. -/
def LocalInv (W I : ℕ) (s : LocalState) : Prop :=
  s.spawned ≤ W ∧
  (s.gate = true → s.spawned = W) ∧
  (s.gate = false → (∀ w, s.ws w = LocalW.spinning) ∧ ∀ w, s.slots w = 0) ∧
  (∀ w, s.ws w = LocalW.spinning → s.slots w = 0) ∧
  (∀ w n, s.ws w = LocalW.running n → s.slots w + n = I)

theorem local_inv (W I : ℕ) : ∀ s, LocalReachable W I s → LocalInv W I s := by
  intro s h
  induction h with
  | refl =>
      refine ⟨Nat.zero_le W, ?_, fun _ => ⟨fun _ => rfl, fun _ => rfl⟩, ?_, ?_⟩
      · intro hg; exact Bool.noConfusion hg
      · intro w _; rfl
      · intro w n hw; exact LocalW.noConfusion hw
  | @tail b cst hab hbc ih =>
      obtain ⟨i1, i2, i3, i4, i5⟩ := ih
      cases hbc with
      | spawn h =>
          refine ⟨?_, ?_, i3, i4, i5⟩
          · dsimp only; omega
          · intro hg
            exact absurd (i2 hg) (by omega)
      | openGate h h2 =>
          refine ⟨i1, fun _ => h, ?_, i4, i5⟩
          intro hgf
          dsimp only at hgf
          exact Bool.noConfusion hgf
      | pass w hw hg hs =>
          refine ⟨i1, i2, ?_, ?_, ?_⟩
          · intro hgf
            dsimp only at hgf
            rw [hg] at hgf
            exact Bool.noConfusion hgf
          · intro w' hw'
            dsimp only at hw' ⊢
            by_cases hww : w' = w
            · subst hww
              rw [Function.update_same] at hw'
              exact LocalW.noConfusion hw'
            · rw [Function.update_noteq hww] at hw'
              exact i4 w' hw'
          · intro w' n' hw'
            dsimp only at hw' ⊢
            by_cases hww : w' = w
            · rw [hww] at hw' ⊢
              rw [Function.update_same] at hw'
              simp only [LocalW.running.injEq] at hw'
              rw [i4 w hs]
              omega
            · rw [Function.update_noteq hww] at hw'
              exact i5 w' n' hw'
      | inc w n hw hs =>
          have hslot : b.slots w + (n + 1) = I := i5 w (n + 1) hs
          refine ⟨i1, i2, ?_, ?_, ?_⟩
          · intro hgf
            dsimp only at hgf
            have h0 := (i3 hgf).1 w
            rw [hs] at h0
            exact LocalW.noConfusion h0
          · intro w' hw'
            dsimp only at hw' ⊢
            by_cases hww : w' = w
            · subst hww
              rw [Function.update_same] at hw'
              exact LocalW.noConfusion hw'
            · rw [Function.update_noteq hww] at hw'
              rw [Function.update_noteq hww]
              exact i4 w' hw'
          · intro w' n' hw'
            dsimp only at hw' ⊢
            by_cases hww : w' = w
            · subst hww
              rw [Function.update_same] at hw'
              rw [Function.update_same]
              simp only [LocalW.running.injEq] at hw'
              omega
            · rw [Function.update_noteq hww] at hw'
              rw [Function.update_noteq hww]
              exact i5 w' n' hw'

theorem local_final_eq (W I : ℕ) (s : LocalState) (hr : LocalReachable W I s)
    (hf : LocalFinal W s) : (∑ x ∈ Finset.range W, s.slots x) = W * I := by
  have h5 := (local_inv W I s hr).2.2.2.2
  have h : ∀ w ∈ Finset.range W, s.slots w = I := by
    intro w hw
    have := h5 w 0 (hf.2 w (Finset.mem_range.mp hw))
    omega
  rw [Finset.sum_congr rfl h, Finset.sum_const, Finset.card_range, smul_eq_mul]

theorem local_outcome_eq (W I v : ℕ) (h : LocalOutcome W I v) : v = W * I := by
  obtain ⟨s, hr, hf, hc⟩ := h
  exact hc ▸ local_final_eq W I s hr hf

/-! ### Concrete executions

Explicit schedules showing that each trial relation actually reaches a final
state, at `W = 1, I = 1` and at `W = 0` (where the initial state is already
final because the spawn loops run zero times). -/

theorem raceOutcome_one_one : RaceOutcome 1 1 1 := by
  refine ⟨_, Relation.ReflTransGen.tail (Relation.ReflTransGen.tail
      (Relation.ReflTransGen.tail (Relation.ReflTransGen.tail
        (Relation.ReflTransGen.tail Relation.ReflTransGen.refl
          (RaceStep.spawn raceInit (by decide)))
        (RaceStep.openGate _ rfl rfl))
      (RaceStep.pass _ 0 (by decide) rfl rfl))
      (RaceStep.read _ 0 0 (by decide) rfl))
      (RaceStep.write _ 0 0 0 (by decide) rfl), ?_, ?_⟩
  · exact ⟨rfl, by
      intro w hw
      have hw0 : w = 0 := by omega
      subst hw0
      rfl⟩
  · rfl

theorem raceOutcome_zero (I : ℕ) : RaceOutcome 0 I 0 :=
  ⟨raceInit, Relation.ReflTransGen.refl,
    ⟨rfl, fun w hw => absurd hw (Nat.not_lt_zero w)⟩, rfl⟩

theorem mutexOutcome_one_one : MutexOutcome 1 1 1 := by
  refine ⟨_, Relation.ReflTransGen.tail (Relation.ReflTransGen.tail
      (Relation.ReflTransGen.tail (Relation.ReflTransGen.tail
        (Relation.ReflTransGen.tail (Relation.ReflTransGen.tail
          (Relation.ReflTransGen.tail Relation.ReflTransGen.refl
            (MutexStep.spawn mutexInit (by decide)))
          (MutexStep.openGate _ rfl rfl))
        (MutexStep.pass _ 0 (by decide) rfl rfl))
        (MutexStep.lock _ 0 (by decide) rfl rfl))
        (MutexStep.read _ 0 0 (by decide) rfl))
        (MutexStep.write _ 0 0 0 (by decide) rfl))
        (MutexStep.unlock _ 0 (by decide) rfl), ?_, ?_⟩
  · exact ⟨rfl, by
      intro w hw
      have hw0 : w = 0 := by omega
      subst hw0
      rfl⟩
  · rfl

theorem mutexOutcome_zero (I : ℕ) : MutexOutcome 0 I 0 :=
  ⟨mutexInit, Relation.ReflTransGen.refl,
    ⟨rfl, fun w hw => absurd hw (Nat.not_lt_zero w)⟩, rfl⟩

theorem lockGuardOutcome_one_one : LockGuardOutcome 1 1 1 := by
  refine ⟨_, Relation.ReflTransGen.tail (Relation.ReflTransGen.tail
      (Relation.ReflTransGen.tail (Relation.ReflTransGen.tail
        (Relation.ReflTransGen.tail (Relation.ReflTransGen.tail
          (Relation.ReflTransGen.tail Relation.ReflTransGen.refl
            (LockGuardStep.spawn mutexInit (by decide)))
          (LockGuardStep.openGate _ rfl rfl))
        (LockGuardStep.pass _ 0 (by decide) rfl rfl))
        (LockGuardStep.lock _ 0 (by decide) rfl rfl))
        (LockGuardStep.read _ 0 0 (by decide) rfl))
        (LockGuardStep.write _ 0 0 0 (by decide) rfl))
        (LockGuardStep.unlock _ 0 (by decide) rfl), ?_, ?_⟩
  · exact ⟨rfl, by
      intro w hw
      have hw0 : w = 0 := by omega
      subst hw0
      rfl⟩
  · rfl

theorem lockGuardOutcome_zero (I : ℕ) : LockGuardOutcome 0 I 0 :=
  ⟨mutexInit, Relation.ReflTransGen.refl,
    ⟨rfl, fun w hw => absurd hw (Nat.not_lt_zero w)⟩, rfl⟩

theorem atomicOutcome_one_one : AtomicOutcome 1 1 1 := by
  refine ⟨_, Relation.ReflTransGen.tail (Relation.ReflTransGen.tail
      (Relation.ReflTransGen.tail (Relation.ReflTransGen.tail
        Relation.ReflTransGen.refl
          (AtomicStep.spawn atomicInit (by decide)))
        (AtomicStep.openGate _ rfl rfl))
      (AtomicStep.pass _ 0 (by decide) rfl rfl))
      (AtomicStep.fetchAdd _ 0 0 (by decide) rfl), ?_, ?_⟩
  · exact ⟨rfl, by
      intro w hw
      have hw0 : w = 0 := by omega
      subst hw0
      rfl⟩
  · rfl

theorem atomicOutcome_zero (I : ℕ) : AtomicOutcome 0 I 0 :=
  ⟨atomicInit, Relation.ReflTransGen.refl,
    ⟨rfl, fun w hw => absurd hw (Nat.not_lt_zero w)⟩, rfl⟩

/-- The vector contents observed by the reduction loop: slot `w` of some
reachable final parallel-phase state, for `w = 0 .. W-1`. -/
def LocalSlotsOutcome (W I : ℕ) (l : List ℕ) : Prop :=
  ∃ s, LocalReachable W I s ∧ LocalFinal W s ∧ l = (List.range W).map s.slots

theorem sum_map_range (f : ℕ → ℕ) : ∀ n, ((List.range n).map f).sum = ∑ x ∈ Finset.range n, f x := by
  intro n
  induction n with
  | zero => rfl
  | succ m ih =>
      rw [List.range_succ, List.map_append, List.sum_append, Finset.sum_range_succ, ih]
      simp

theorem localSlots_length (W I : ℕ) (l : List ℕ) (h : LocalSlotsOutcome W I l) :
    l.length = W := by
  obtain ⟨s, _, _, hl⟩ := h
  rw [hl, List.length_map, List.length_range]

theorem localSlots_sum (W I : ℕ) (l : List ℕ) (h : LocalSlotsOutcome W I l) :
    l.sum = W * I := by
  obtain ⟨s, hr, hf, hl⟩ := h
  rw [hl, sum_map_range]
  exact local_final_eq W I s hr hf

theorem localSlots_one_one : LocalSlotsOutcome 1 1 [1] := by
  refine ⟨_, Relation.ReflTransGen.tail (Relation.ReflTransGen.tail
      (Relation.ReflTransGen.tail (Relation.ReflTransGen.tail
        Relation.ReflTransGen.refl
          (LocalStep.spawn localInit (by decide)))
        (LocalStep.openGate _ rfl rfl))
      (LocalStep.pass _ 0 (by decide) rfl rfl))
      (LocalStep.inc _ 0 0 (by decide) rfl), ?_, ?_⟩
  · exact ⟨rfl, by
      intro w hw
      have hw0 : w = 0 := by omega
      subst hw0
      rfl⟩
  · rfl

theorem localSlots_zero (I : ℕ) : LocalSlotsOutcome 0 I [] :=
  ⟨localInit, Relation.ReflTransGen.refl,
    ⟨rfl, fun w hw => absurd hw (Nat.not_lt_zero w)⟩, rfl⟩

/-! ### The per-trial bookkeeping of `main` (src lines 105-257)

Each trial block is embedded as a function from the persistent mutable state
to the post-reset state plus the emitted record.  The effect of the worker
phase — the only nondeterministic part — enters as a parameter (the observed
final counter value, or the slot contents for the LocalCounter trial), and
is constrained through the trial relations in the theorems below.  The
elapsed time `secs` measured between the two clock readings is likewise a
parameter; rationals stand in for the C++ `double` arithmetic of
`sharedCounter*1000/seconds` (src 154 and siblings). -/

/-- One emitted line (src 154, 177, 200, 223, 251): function name, final
counter value, `t`, increments per millisecond, seconds. -/
structure Record where
  fname : String
  finalValue : ℕ
  threads : Int
  throughput : ℚ
  seconds : ℚ
deriving DecidableEq

/-- The mutable shared state of `main` that persists across trials
(src 9-11 and 108-113). -/
structure MainState where
  sharedCounter : ℕ
  sharedCounterAtomic : ℕ
  localCounterVector : List ℕ
  threadVector : ℕ
  start : Bool
deriving DecidableEq

/-- State after initialization (src 108-113): counters zero, no thread
handles, gate closed, empty slot vector. -/
def initMainState : MainState :=
  { sharedCounter := 0, sharedCounterAtomic := 0, localCounterVector := [],
    threadVector := 0, start := false }

/-- The RaceCondition trial block (src 143-157): spawn `t` workers, open the
gate, join; `cv` is `sharedCounter` as the join loop finishes; emit the
record (src 154); reset `sharedCounter`, `threadVector` and `start`
(src 155-157). -/
def raceBlock (t : Int) (cv : ℕ) (secs : ℚ) (s : MainState) : MainState × Record :=
  let afterJoin : MainState :=
    { s with threadVector := t.toNat, start := true, sharedCounter := cv }
  let r : Record :=
    { fname := "incrementiTimesRaceCondition",
      finalValue := afterJoin.sharedCounter,
      threads := t,
      throughput := (afterJoin.sharedCounter : ℚ) * 1000 / secs,
      seconds := secs }
  ({ afterJoin with sharedCounter := 0, threadVector := 0, start := false }, r)

/-- The MutexLock trial block (src 166-180); structure as `raceBlock`. -/
def mutexBlock (t : Int) (cv : ℕ) (secs : ℚ) (s : MainState) : MainState × Record :=
  let afterJoin : MainState :=
    { s with threadVector := t.toNat, start := true, sharedCounter := cv }
  let r : Record :=
    { fname := "incrementiTimesMutexLock",
      finalValue := afterJoin.sharedCounter,
      threads := t,
      throughput := (afterJoin.sharedCounter : ℚ) * 1000 / secs,
      seconds := secs }
  ({ afterJoin with sharedCounter := 0, threadVector := 0, start := false }, r)

/-- The LockGuard trial block (src 189-203); structure as `raceBlock`. -/
def lockGuardBlock (t : Int) (cv : ℕ) (secs : ℚ) (s : MainState) : MainState × Record :=
  let afterJoin : MainState :=
    { s with threadVector := t.toNat, start := true, sharedCounter := cv }
  let r : Record :=
    { fname := "incrementiTimesLockGuard",
      finalValue := afterJoin.sharedCounter,
      threads := t,
      throughput := (afterJoin.sharedCounter : ℚ) * 1000 / secs,
      seconds := secs }
  ({ afterJoin with sharedCounter := 0, threadVector := 0, start := false }, r)

/-- The Atomic trial block (src 212-226): the workers mutate
`sharedCounterAtomic`, and the reset at src 224 clears that counter. -/
def atomicBlock (t : Int) (cv : ℕ) (secs : ℚ) (s : MainState) : MainState × Record :=
  let afterJoin : MainState :=
    { s with threadVector := t.toNat, start := true, sharedCounterAtomic := cv }
  let r : Record :=
    { fname := "incrementiTimesAtomic",
      finalValue := afterJoin.sharedCounterAtomic,
      threads := t,
      throughput := (afterJoin.sharedCounterAtomic : ℚ) * 1000 / secs,
      seconds := secs }
  ({ afterJoin with sharedCounterAtomic := 0, threadVector := 0, start := false }, r)

/-- The LocalCounter trial block (src 236-255): the workers fill the slot
vector `slots`; after the join the reduction loop (src 245-247) adds every
slot into `sharedCounter`; the resets (src 252-255) also clear
`localCounterVector`. -/
def localBlock (t : Int) (slots : List ℕ) (secs : ℚ) (s : MainState) :
    MainState × Record :=
  let afterJoin : MainState :=
    { s with threadVector := t.toNat, start := true, localCounterVector := slots }
  let afterReduce : MainState :=
    { afterJoin with sharedCounter := s.sharedCounter + slots.sum }
  let r : Record :=
    { fname := "incrementiTimesLocalCounter",
      finalValue := afterReduce.sharedCounter,
      threads := t,
      throughput := (afterReduce.sharedCounter : ℚ) * 1000 / secs,
      seconds := secs }
  let post : MainState :=
    { afterReduce with
      sharedCounter := 0,
      threadVector := 0,
      localCounterVector := [],
      start := false }
  (post, r)

/-- The five trials of `main` in source order, on the initialized state. -/
def mainModel (t : Int) (cvRace cvMutex cvGuard cvAtomic : ℕ) (slots : List ℕ)
    (q1 q2 q3 q4 q5 : ℚ) : List Record × MainState :=
  let b1 := raceBlock t cvRace q1 initMainState
  let b2 := mutexBlock t cvMutex q2 b1.1
  let b3 := lockGuardBlock t cvGuard q3 b2.1
  let b4 := atomicBlock t cvAtomic q4 b3.1
  let b5 := localBlock t slots q5 b4.1
  ([b1.2, b2.2, b3.2, b4.2, b5.2], b5.1)

/-- The header printed at src 134 (verbatim, including the `Couter` typo). -/
def headerLine : String :=
  "Function Name\tFinal Couter Value\tThreads\tIncrements/Millisecond\tSeconds"

/-- One line of program output. -/
inductive OutLine where
  | header (s : String)
  | data (r : Record)
deriving DecidableEq

/-- The whole output stream of `main`: the header (src 134) followed by one
data line per trial. -/
def mainOutput (t : Int) (cvRace cvMutex cvGuard cvAtomic : ℕ) (slots : List ℕ)
    (q1 q2 q3 q4 q5 : ℚ) : List OutLine :=
  OutLine.header headerLine ::
    (mainModel t cvRace cvMutex cvGuard cvAtomic slots q1 q2 q3 q4 q5).1.map OutLine.data

/-! ### Supporting lemmas for the claim theorems -/

theorem localOutcome_of_slots (W I : ℕ) (l : List ℕ) (h : LocalSlotsOutcome W I l) :
    LocalOutcome W I l.sum := by
  obtain ⟨s, hr, hf, hl⟩ := h
  exact ⟨s, hr, hf, by rw [hl, sum_map_range]⟩

theorem localOutcome_one_one : LocalOutcome 1 1 1 := by
  have h := localOutcome_of_slots 1 1 [1] localSlots_one_one
  simpa using h

/-! ### The claims -/

/-- C1: for every worker count `W ≥ 1` and iteration count `I ≥ 0`, each of
the four synchronized strategies (MutexLock, LockGuard, Atomic, LocalCounter)
finishes its trial with a final counter value exactly equal to `W * I`: any
counter value observable at the join of a reachable final trial state is
`W * I`. -/
theorem C1_synchronized_exact (W I v1 v2 v3 v4 : ℕ) (hW : 1 ≤ W)
    (h1 : MutexOutcome W I v1) (h2 : LockGuardOutcome W I v2)
    (h3 : AtomicOutcome W I v3) (h4 : LocalOutcome W I v4) :
    v1 = W * I ∧ v2 = W * I ∧ v3 = W * I ∧ v4 = W * I :=
  ⟨mutex_outcome_eq W I v1 h1, lockGuard_outcome_eq W I v2 h2,
   atomic_outcome_eq W I v3 h3, local_outcome_eq W I v4 h4⟩

/-- Witness for C1 at `W = 1`, `I = 1` with the concrete executions. -/
theorem C1_synchronized_exact_witness :
    1 ≤ 1 ∧ (1 = 1 * 1 ∧ 1 = 1 * 1 ∧ 1 = 1 * 1 ∧ 1 = 1 * 1) :=
  ⟨by decide, C1_synchronized_exact 1 1 1 1 1 1 (by decide) mutexOutcome_one_one
    lockGuardOutcome_one_one atomicOutcome_one_one localOutcome_one_one⟩

/-- C2: for every worker count `W ≥ 1` and iteration count `I`, the
RaceCondition trial's final counter value is at most `W * I`, and at `W = 1`
it equals `I` exactly. -/
theorem C2_race_bound (W I v u : ℕ) (hW : 1 ≤ W)
    (hv : RaceOutcome W I v) (hu : RaceOutcome 1 I u) :
    v ≤ W * I ∧ u = I :=
  ⟨race_outcome_le W I v hv, race_outcome_one I u hu⟩

/-- Witness for C2 at `W = I = 1`. -/
theorem C2_race_bound_witness : 1 ≤ 1 ∧ (1 ≤ 1 * 1 ∧ 1 = 1) :=
  ⟨by decide, C2_race_bound 1 1 1 1 (by decide) raceOutcome_one_one raceOutcome_one_one⟩

/-- C3 as stated is false on the code: in the LocalCounter trial the
reduction loop (src 245-247) runs before the `t2` timestamp (src 248), so
the end timestamp is neither immediately after the join nor before the
reduction. -/
theorem C3_counterexample :
    ¬ (localCounterTrialSeq.indexOf RunnerEv.recordEnd
         = localCounterTrialSeq.indexOf RunnerEv.joinAll + 1 ∧
       localCounterTrialSeq.indexOf RunnerEv.recordEnd
         < localCounterTrialSeq.indexOf RunnerEv.reduceSlots) := by
  decide

/-- C3 amended: in the four non-LocalCounter trials the end timestamp is
recorded immediately after the join loop; in the LocalCounter trial the
reduction loop runs immediately after the join and the end timestamp is
recorded immediately after the reduction (so the reduction is included in
the measured elapsed time). -/
theorem C3_amended :
    raceTrialSeq.indexOf RunnerEv.recordEnd
      = raceTrialSeq.indexOf RunnerEv.joinAll + 1 ∧
    mutexTrialSeq.indexOf RunnerEv.recordEnd
      = mutexTrialSeq.indexOf RunnerEv.joinAll + 1 ∧
    lockGuardTrialSeq.indexOf RunnerEv.recordEnd
      = lockGuardTrialSeq.indexOf RunnerEv.joinAll + 1 ∧
    atomicTrialSeq.indexOf RunnerEv.recordEnd
      = atomicTrialSeq.indexOf RunnerEv.joinAll + 1 ∧
    localCounterTrialSeq.indexOf RunnerEv.reduceSlots
      = localCounterTrialSeq.indexOf RunnerEv.joinAll + 1 ∧
    localCounterTrialSeq.indexOf RunnerEv.recordEnd
      = localCounterTrialSeq.indexOf RunnerEv.reduceSlots + 1 := by
  decide

/-- C4 as stated is false on the code: already at `W = 2` the spawn loop of
the LocalCounter trial (src 236-239) appends slot 1 after worker 0 has been
spawned, so not every slot append precedes every spawn. -/
theorem C4_counterexample : ¬ pushesBeforeAllSpawns (localCounterSetup 2) := by
  decide

/-- C4 amended: iteration `k` of the spawn loop appends slot `k` (position
`2k`) immediately before spawning worker `k` (position `2k+1`), so each slot
exists before its owner starts, but the sequence keeps growing while earlier
workers are already running; every append still precedes the gate opening
(position `2W+1`). -/
theorem C4_amended (W k : ℕ) (h : k < W) :
    (localCounterSetup W)[2 * k]? = some (SetupEv.pushSlot k) ∧
    (localCounterSetup W)[2 * k + 1]? = some (SetupEv.spawnWorker k) ∧
    (localCounterSetup W)[2 * W + 1]? = some SetupEv.openGate :=
  localCounterSetup_get W k h

/-- Witness for the amended C4 at `W = 2`, `k = 1`. -/
theorem C4_amended_witness :
    1 < 2 ∧ ((localCounterSetup 2)[2 * 1]? = some (SetupEv.pushSlot 1) ∧
      (localCounterSetup 2)[2 * 1 + 1]? = some (SetupEv.spawnWorker 1) ∧
      (localCounterSetup 2)[2 * 2 + 1]? = some SetupEv.openGate) :=
  ⟨by decide, C4_amended 2 1 (by decide)⟩

/-- C5: the MutexLock worker and the LockGuard worker are behaviorally
identical under normal execution: for the same gate state and iteration
count they produce the same event trace, and when the gate is open that
trace acquires the lock once, performs all `i` increments inside the single
critical section, releases once, and moves the counter from `c` to `c + i`. -/
theorem C5_lockGuard_equiv (gate : Bool) (c i : ℕ) :
    incrementiTimesMutexLockTrace gate i = incrementiTimesLockGuardTrace gate i ∧
    (∀ tr, incrementiTimesMutexLockTrace gate i = some tr →
      tr.count LockEv.lockAcq = 1 ∧ tr.count LockEv.lockRel = 1 ∧
      tr.count LockEv.incr = i ∧ execLockEvs c tr = c + i) := by
  refine ⟨rfl, ?_⟩
  intro tr htr
  cases gate with
  | false => exact Option.noConfusion htr
  | true =>
      have htr2 : tr = LockEv.lockAcq :: (incLoopTrace i ++ [LockEv.lockRel]) :=
        (Option.some.inj htr).symm
      subst htr2
      refine ⟨?_, ?_, ?_, ?_⟩
      · simp [List.count_cons, List.count_append, count_incLoop_acq]
      · simp [List.count_cons, List.count_append, count_incLoop_rel]
      · simp [List.count_cons, List.count_append, count_incLoop]
      · show execLockEvs c (incLoopTrace i ++ [LockEv.lockRel]) = c + i
        rw [execLockEvs_incLoop i c [LockEv.lockRel]]
        rfl

/-- Witness for C5 at `gate = true`, `c = 5`, `i = 2`. -/
theorem C5_lockGuard_equiv_witness :
    [LockEv.lockAcq, LockEv.incr, LockEv.incr, LockEv.lockRel].count LockEv.lockAcq = 1 ∧
    [LockEv.lockAcq, LockEv.incr, LockEv.incr, LockEv.lockRel].count LockEv.lockRel = 1 ∧
    [LockEv.lockAcq, LockEv.incr, LockEv.incr, LockEv.lockRel].count LockEv.incr = 2 ∧
    execLockEvs 5 [LockEv.lockAcq, LockEv.incr, LockEv.incr, LockEv.lockRel] = 5 + 2 :=
  (C5_lockGuard_equiv true 5 2).2 _ rfl

/-- C6: the argument scan yields `t = 4` and `i = 10000` when no flags are
given; when a flag is repeated the value after its last occurrence wins; and
a trailing `-t`/`-i` with no following value is silently ignored — all for
an arbitrary numeric converter. -/
theorem C6_argScan :
    (∀ atoi args, "-t" ∉ args → "-i" ∉ args → parseArgs atoi args = (4, 10000)) ∧
    (∀ atoi args v, alignedArgs args = true →
      (parseArgs atoi (args ++ ["-t", v])).1 = atoi v ∧
      (parseArgs atoi (args ++ ["-i", v])).2 = atoi v) ∧
    (∀ atoi args f, (f = "-t" ∨ f = "-i") → alignedArgs args = true →
      parseArgs atoi (args ++ [f]) = parseArgs atoi args) := by
  refine ⟨?_, ?_, ?_⟩
  · intro atoi args ht hi
    exact parseLoop_no_flags atoi args ht hi (4, 10000)
  · intro atoi args v halign
    constructor
    · rw [parseArgs, parseLoop_append atoi ["-t", v] args halign]
      obtain ⟨t0, i0⟩ := parseLoop atoi args (4, 10000)
      simp [parseLoop]
    · rw [parseArgs, parseLoop_append atoi ["-i", v] args halign]
      obtain ⟨t0, i0⟩ := parseLoop atoi args (4, 10000)
      simp [parseLoop]
  · intro atoi args f hf halign
    rw [parseArgs, parseArgs, parseLoop_append atoi [f] args halign]
    obtain ⟨t0, i0⟩ := parseLoop atoi args (4, 10000)
    rfl

/-- Witness for C6: defaults on an empty command line, last `-t` wins, and a
trailing `-i` is ignored, under the modelled `atoi`. -/
theorem C6_argScan_witness :
    parseArgs atoiModel [] = (4, 10000) ∧
    (parseArgs atoiModel (["-t", "2"] ++ ["-t", "7"])).1 = atoiModel "7" ∧
    parseArgs atoiModel (["-i", "3"] ++ ["-i"]) = parseArgs atoiModel ["-i", "3"] :=
  ⟨C6_argScan.1 atoiModel [] (by decide) (by decide),
   (C6_argScan.2.1 atoiModel ["-t", "2"] "7" (by decide)).1,
   C6_argScan.2.2 atoiModel ["-i", "3"] "-i" (Or.inr rfl) (by decide)⟩

/-- C7: in every strategy's trial, while the gate is still closed no counted
increment has happened (the counter, or every slot, is still zero, and every
worker is still spinning on the flag), and once the gate is open all `W`
workers have already been spawned. -/
theorem C7_gate_discipline (W I : ℕ) :
    (∀ s, RaceReachable W I s →
      (s.gate = false → s.c = 0 ∧ ∀ w, s.ws w = RaceW.spinning) ∧
      (s.gate = true → s.spawned = W)) ∧
    (∀ s, MutexReachable W I s →
      (s.gate = false → s.c = 0 ∧ ∀ w, s.ws w = MutexW.spinning) ∧
      (s.gate = true → s.spawned = W)) ∧
    (∀ s, LockGuardReachable W I s →
      (s.gate = false → s.c = 0 ∧ ∀ w, s.ws w = MutexW.spinning) ∧
      (s.gate = true → s.spawned = W)) ∧
    (∀ s, AtomicReachable W I s →
      (s.gate = false → s.c = 0 ∧ ∀ w, s.ws w = AtomicW.spinning) ∧
      (s.gate = true → s.spawned = W)) ∧
    (∀ s, LocalReachable W I s →
      (s.gate = false → (∀ w, s.slots w = 0) ∧ ∀ w, s.ws w = LocalW.spinning) ∧
      (s.gate = true → s.spawned = W)) := by
  refine ⟨?_, ?_, ?_, ?_, ?_⟩
  · intro s hr
    obtain ⟨_, i2, i3, _⟩ := race_inv W I s hr
    exact ⟨fun hg => ⟨(i3 hg).2, (i3 hg).1⟩, i2⟩
  · intro s hr
    obtain ⟨_, i2, i3, _⟩ := mutex_inv W I s hr
    exact ⟨fun hg => ⟨(i3 hg).2, (i3 hg).1⟩, i2⟩
  · intro s hr
    obtain ⟨_, i2, i3, _⟩ := mutex_inv W I s ((lockGuardReachable_iff W I s).mp hr)
    exact ⟨fun hg => ⟨(i3 hg).2, (i3 hg).1⟩, i2⟩
  · intro s hr
    obtain ⟨_, i2, i3, _⟩ := atomic_inv W I s hr
    exact ⟨fun hg => ⟨(i3 hg).2, (i3 hg).1⟩, i2⟩
  · intro s hr
    obtain ⟨_, i2, i3, _⟩ := local_inv W I s hr
    exact ⟨fun hg => ⟨(i3 hg).2, (i3 hg).1⟩, i2⟩

/-- Witness for C7 at the initial RaceCondition state with `W = I = 1`. -/
theorem C7_gate_discipline_witness :
    (raceInit.gate = false → raceInit.c = 0 ∧ ∀ w, raceInit.ws w = RaceW.spinning) ∧
    (raceInit.gate = true → raceInit.spawned = 1) :=
  (C7_gate_discipline 1 1).1 raceInit Relation.ReflTransGen.refl

/-- C8: after every trial block the shared state is restored — the counter
the trial mutated is zero again, the start flag is false, the thread-handle
container is empty, and (for LocalCounter) the slot vector is cleared; in
particular every trial of `mainModel` begins from `initMainState` and the
final state equals `initMainState`. -/
theorem C8_trial_resets (t : Int) (cv mv gv av : ℕ) (slots : List ℕ)
    (q1 q2 q3 q4 q5 : ℚ) (s : MainState) :
    ((raceBlock t cv q1 s).1.sharedCounter = 0 ∧ (raceBlock t cv q1 s).1.start = false ∧
      (raceBlock t cv q1 s).1.threadVector = 0) ∧
    ((mutexBlock t mv q2 s).1.sharedCounter = 0 ∧ (mutexBlock t mv q2 s).1.start = false ∧
      (mutexBlock t mv q2 s).1.threadVector = 0) ∧
    ((lockGuardBlock t gv q3 s).1.sharedCounter = 0 ∧
      (lockGuardBlock t gv q3 s).1.start = false ∧
      (lockGuardBlock t gv q3 s).1.threadVector = 0) ∧
    ((atomicBlock t av q4 s).1.sharedCounterAtomic = 0 ∧
      (atomicBlock t av q4 s).1.start = false ∧
      (atomicBlock t av q4 s).1.threadVector = 0) ∧
    ((localBlock t slots q5 s).1.sharedCounter = 0 ∧
      (localBlock t slots q5 s).1.start = false ∧
      (localBlock t slots q5 s).1.threadVector = 0 ∧
      (localBlock t slots q5 s).1.localCounterVector = []) ∧
    (raceBlock t cv q1 initMainState).1 = initMainState ∧
    (mutexBlock t mv q2 initMainState).1 = initMainState ∧
    (lockGuardBlock t gv q3 initMainState).1 = initMainState ∧
    (atomicBlock t av q4 initMainState).1 = initMainState ∧
    (localBlock t slots q5 initMainState).1 = initMainState ∧
    (mainModel t cv mv gv av slots q1 q2 q3 q4 q5).2 = initMainState :=
  ⟨⟨rfl, rfl, rfl⟩, ⟨rfl, rfl, rfl⟩, ⟨rfl, rfl, rfl⟩, ⟨rfl, rfl, rfl⟩,
   ⟨rfl, rfl, rfl, rfl⟩, rfl, rfl, rfl, rfl, rfl, rfl⟩

/-- C9: every emitted record reports a throughput equal to the observed
final counter value times 1000 divided by the elapsed seconds, and for
`t ≥ 1`, `i ≥ 1` and positive measured times that throughput is positive
(rationals model the C++ double arithmetic, which is finite there). -/
theorem C9_throughput (t i : Int) (ht : 1 ≤ t) (hi : 1 ≤ i)
    (cv mv gv av : ℕ) (slots : List ℕ) (q1 q2 q3 q4 q5 : ℚ)
    (hq1 : 0 < q1) (hq2 : 0 < q2) (hq3 : 0 < q3) (hq4 : 0 < q4) (hq5 : 0 < q5)
    (hcv : RaceOutcome t.toNat i.toNat cv) (hmv : MutexOutcome t.toNat i.toNat mv)
    (hgv : LockGuardOutcome t.toNat i.toNat gv) (hav : AtomicOutcome t.toNat i.toNat av)
    (hsl : LocalSlotsOutcome t.toNat i.toNat slots) :
    ∀ r ∈ (mainModel t cv mv gv av slots q1 q2 q3 q4 q5).1,
      r.throughput = (r.finalValue : ℚ) * 1000 / r.seconds ∧ 0 < r.throughput := by
  have hW : 1 ≤ t.toNat := by omega
  have hI : 1 ≤ i.toNat := by omega
  have hpos : 0 < t.toNat * i.toNat := Nat.mul_pos hW hI
  have h1 : 1 ≤ cv := race_outcome_pos t.toNat i.toNat cv hcv hW hI
  have h2 : mv = t.toNat * i.toNat := mutex_outcome_eq t.toNat i.toNat mv hmv
  have h3 : gv = t.toNat * i.toNat := lockGuard_outcome_eq t.toNat i.toNat gv hgv
  have h4 : av = t.toNat * i.toNat := atomic_outcome_eq t.toNat i.toNat av hav
  have h5 : slots.sum = t.toNat * i.toNat := localSlots_sum t.toNat i.toNat slots hsl
  intro r hr
  have hthr : ∀ (v : ℕ) (q : ℚ), 0 < q → 1 ≤ v → 0 < (v : ℚ) * 1000 / q := by
    intro v q hq hv
    have hv2 : (0 : ℚ) < (v : ℚ) := by exact_mod_cast Nat.lt_of_lt_of_le Nat.zero_lt_one hv
    exact div_pos (mul_pos hv2 (by norm_num)) hq
  simp only [mainModel, raceBlock, mutexBlock, lockGuardBlock, atomicBlock, localBlock,
    List.mem_cons, List.not_mem_nil, or_false] at hr
  rcases hr with hr | hr | hr | hr | hr <;> subst hr
  · exact ⟨rfl, hthr cv q1 hq1 h1⟩
  · exact ⟨rfl, hthr mv q2 hq2 (by omega)⟩
  · exact ⟨rfl, hthr gv q3 hq3 (by omega)⟩
  · exact ⟨rfl, hthr av q4 hq4 (by omega)⟩
  · exact ⟨rfl, hthr (0 + slots.sum) q5 hq5 (by omega)⟩

/-- Witness for C9: the RaceCondition record at `t = i = 1` with unit
elapsed times. -/
theorem C9_throughput_witness :
    (raceBlock 1 1 1 initMainState).2.throughput
      = ((raceBlock 1 1 1 initMainState).2.finalValue : ℚ) * 1000
          / (raceBlock 1 1 1 initMainState).2.seconds ∧
    0 < (raceBlock 1 1 1 initMainState).2.throughput :=
  C9_throughput 1 1 (by decide) (by decide) 1 1 1 1 [1] 1 1 1 1 1
    (by norm_num) (by norm_num) (by norm_num) (by norm_num) (by norm_num)
    raceOutcome_one_one mutexOutcome_one_one lockGuardOutcome_one_one
    atomicOutcome_one_one localSlots_one_one
    (raceBlock 1 1 1 initMainState).2 (List.mem_cons_self _ _)

/-- C10: when the parsed worker count is at most zero (for example from a
negative `-t` value, or a non-numeric one on which the numeric parser yields
0), every trial spawns zero workers, all five records report final value 0,
and the output is still the header followed by exactly five data lines in
the fixed strategy order. -/
theorem C10_nonpositive_workers (t i : Int) (ht : t ≤ 0)
    (cv mv gv av : ℕ) (slots : List ℕ) (q1 q2 q3 q4 q5 : ℚ)
    (hcv : RaceOutcome t.toNat i.toNat cv) (hmv : MutexOutcome t.toNat i.toNat mv)
    (hgv : LockGuardOutcome t.toNat i.toNat gv) (hav : AtomicOutcome t.toNat i.toNat av)
    (hsl : LocalSlotsOutcome t.toNat i.toNat slots) :
    t.toNat = 0 ∧
    parseArgs atoiModel ["-t", "abc"] = (0, 10000) ∧
    parseArgs atoiModel ["-t", "-3"] = (-3, 10000) ∧
    (mainModel t cv mv gv av slots q1 q2 q3 q4 q5).1.map Record.fname
      = ["incrementiTimesRaceCondition", "incrementiTimesMutexLock",
         "incrementiTimesLockGuard", "incrementiTimesAtomic",
         "incrementiTimesLocalCounter"] ∧
    (mainModel t cv mv gv av slots q1 q2 q3 q4 q5).1.map Record.finalValue
      = [0, 0, 0, 0, 0] ∧
    (mainModel t cv mv gv av slots q1 q2 q3 q4 q5).1.map Record.threads
      = [t, t, t, t, t] ∧
    (mainOutput t cv mv gv av slots q1 q2 q3 q4 q5).length = 6 ∧
    mainOutput t cv mv gv av slots q1 q2 q3 q4 q5
      = OutLine.header headerLine ::
          (mainModel t cv mv gv av slots q1 q2 q3 q4 q5).1.map OutLine.data := by
  have hW : t.toNat = 0 := by omega
  rw [hW] at hcv hmv hgv hav hsl
  have h1 : cv = 0 := by
    have := race_outcome_le 0 i.toNat cv hcv
    omega
  have h2 : mv = 0 := by
    have := mutex_outcome_eq 0 i.toNat mv hmv
    omega
  have h3 : gv = 0 := by
    have := lockGuard_outcome_eq 0 i.toNat gv hgv
    omega
  have h4 : av = 0 := by
    have := atomic_outcome_eq 0 i.toNat av hav
    omega
  have h5 : slots.sum = 0 := by
    have := localSlots_sum 0 i.toNat slots hsl
    omega
  subst h1; subst h2; subst h3; subst h4
  refine ⟨hW, rfl, rfl, rfl, ?_, rfl, rfl, rfl⟩
  simp [mainModel, raceBlock, mutexBlock, lockGuardBlock, atomicBlock, localBlock, h5]

/-- Witness for C10 at `t = i = 0` with the zero-worker executions. -/
theorem C10_nonpositive_workers_witness :
    (0 : Int).toNat = 0 ∧
    parseArgs atoiModel ["-t", "abc"] = (0, 10000) ∧
    parseArgs atoiModel ["-t", "-3"] = (-3, 10000) ∧
    (mainModel 0 0 0 0 0 [] 1 1 1 1 1).1.map Record.fname
      = ["incrementiTimesRaceCondition", "incrementiTimesMutexLock",
         "incrementiTimesLockGuard", "incrementiTimesAtomic",
         "incrementiTimesLocalCounter"] ∧
    (mainModel 0 0 0 0 0 [] 1 1 1 1 1).1.map Record.finalValue = [0, 0, 0, 0, 0] ∧
    (mainModel 0 0 0 0 0 [] 1 1 1 1 1).1.map Record.threads = [0, 0, 0, 0, 0] ∧
    (mainOutput 0 0 0 0 0 [] 1 1 1 1 1).length = 6 ∧
    mainOutput 0 0 0 0 0 [] 1 1 1 1 1
      = OutLine.header headerLine ::
          (mainModel 0 0 0 0 0 [] 1 1 1 1 1).1.map OutLine.data :=
  C10_nonpositive_workers 0 0 (by decide) 0 0 0 0 [] 1 1 1 1 1
    (raceOutcome_zero 0) (mutexOutcome_zero 0) (lockGuardOutcome_zero 0)
    (atomicOutcome_zero 0) (localSlots_zero 0)

end Parcount
